import Mathlib

/-!
# Verification of the calculator engine (hungrybluedev/calculator)

A shallow embedding of the calculator engine from `script/` of the
repository: the display formatter `relevantPart`, the token handlers
(`handleDigit`, `handleBinaryOperation`, `handleEquals`,
`handleUnaryOperation`, `handleClearButton`, `handleMemoryButton`,
`updateDisplays`) and the state they mutate.

The engine imports an arbitrary-precision decimal library
(`decimal.js`), which is not part of the repository sources. Its
behaviour is modelled from the spec: decimal values are exact rationals;
every arithmetic operation rounds its result to the configured precision
budget of `MAX_DIGITS + BUFFER = 24` significant digits using
round-half-to-even (`Decimal.set` in the source fixes precision and
rounding mode); `toFixed` renders plain positional notation while
`toString` switches to exponential notation at exponent `8`
(`toExpPos: 8` in the source) or below `-7` (the library default).
A thrown exception (invalid literal, division by zero outside the
guarded dispatch entry) is modelled by `Option`: `none` means the
handler aborted.
-/

/-! ## Digits and character lists -/

/-- The character for a single decimal digit (`0 ≤ d ≤ 9`). -/
def digitChar (d : ℕ) : Char := Char.ofNat (48 + d)

/-- The numeric value of a decimal digit character. -/
def charToDigit (c : Char) : ℕ := c.toNat - 48

/-- Recognises the characters `0` through `9`. -/
def isDigitCh (c : Char) : Bool := 48 ≤ c.toNat && c.toNat ≤ 57

/-- Least-significant-first base-10 digits of a natural number, with
explicit fuel so that the definition is structural and kernel-reducible. -/
def natToRevDigits : ℕ → ℕ → List ℕ
  | 0, _ => []
  | fuel + 1, n => if n = 0 then [] else n % 10 :: natToRevDigits fuel (n / 10)

/-- Most-significant-first character rendering of a natural number
(`"0"` for zero, no leading zeros otherwise). -/
def natDigitChars (n : ℕ) : List Char :=
  if n = 0 then ['0'] else ((natToRevDigits (n + 1) n).reverse).map digitChar

/-- Value of a least-significant-first digit list. -/
def valRev : List ℕ → ℕ
  | [] => 0
  | d :: t => d + 10 * valRev t

/-- Numeric value of a most-significant-first list of digit characters. -/
def charsVal (l : List Char) : ℕ := valRev (l.reverse.map charToDigit)

theorem valRev_natToRevDigits (fuel : ℕ) :
    ∀ n : ℕ, n ≤ fuel → valRev (natToRevDigits fuel n) = n := by
  induction fuel with
  | zero => intro n hn; interval_cases n; rfl
  | succ f ih =>
      intro n hn
      by_cases h0 : n = 0
      · subst h0; simp [natToRevDigits, valRev]
      · have hdiv : n / 10 ≤ f := by
          have : n / 10 < n := Nat.div_lt_self (Nat.pos_of_ne_zero h0) (by norm_num)
          omega
        simp only [natToRevDigits, h0, if_false, valRev, ih _ hdiv]
        omega

theorem natToRevDigits_lt (fuel : ℕ) :
    ∀ n : ℕ, ∀ d ∈ natToRevDigits fuel n, d < 10 := by
  induction fuel with
  | zero => intro n d hd; simp [natToRevDigits] at hd
  | succ f ih =>
      intro n d hd
      by_cases h0 : n = 0
      · subst h0; simp [natToRevDigits] at hd
      · simp only [natToRevDigits, h0, if_false, List.mem_cons] at hd
        rcases hd with h | h
        · subst h; exact Nat.mod_lt _ (by norm_num)
        · exact ih _ _ h

theorem charToDigit_digitChar {d : ℕ} (hd : d < 10) :
    charToDigit (digitChar d) = d := by
  interval_cases d <;> rfl

theorem isDigitCh_digitChar {d : ℕ} (hd : d < 10) :
    isDigitCh (digitChar d) = true := by
  interval_cases d <;> rfl

theorem digitChar_ne_dot {d : ℕ} (hd : d < 10) : digitChar d ≠ '.' := by
  interval_cases d <;> decide

theorem map_charToDigit_digitChar {rd : List ℕ} (h : ∀ d ∈ rd, d < 10) :
    (rd.map digitChar).map charToDigit = rd := by
  induction rd with
  | nil => rfl
  | cons d t ih =>
      simp only [List.map_cons, List.cons.injEq]
      exact ⟨charToDigit_digitChar (h d (by simp)), ih fun x hx => h x (by simp [hx])⟩

theorem charsVal_rev_map {rd : List ℕ} (h : ∀ d ∈ rd, d < 10) :
    charsVal ((rd.reverse).map digitChar) = valRev rd := by
  unfold charsVal
  rw [← List.map_reverse, List.reverse_reverse, map_charToDigit_digitChar h]

theorem charsVal_natDigitChars (n : ℕ) : charsVal (natDigitChars n) = n := by
  by_cases h0 : n = 0
  · subst h0; rfl
  · simp only [natDigitChars, h0, if_false]
    rw [charsVal_rev_map (natToRevDigits_lt (n + 1) n)]
    exact valRev_natToRevDigits (n + 1) n (by omega)

theorem valRev_append (a b : List ℕ) :
    valRev (a ++ b) = valRev a + 10 ^ a.length * valRev b := by
  induction a with
  | nil => simp [valRev]
  | cons d t ih => simp [valRev, ih, pow_succ]; ring

theorem charsVal_append (a b : List Char) :
    charsVal (a ++ b) = charsVal a * 10 ^ b.length + charsVal b := by
  unfold charsVal
  rw [List.reverse_append, List.map_append, valRev_append]
  simp [Nat.add_comm, Nat.mul_comm]

theorem charsVal_zeros_append (z : ℕ) (b : List Char) :
    charsVal (List.replicate z '0' ++ b) = charsVal b := by
  rw [charsVal_append]
  have : charsVal (List.replicate z '0') = 0 := by
    induction z with
    | zero => rfl
    | succ k ih =>
        have : List.replicate (k + 1) '0' = List.replicate k '0' ++ ['0'] := by
          rw [List.replicate_succ' ]
        rw [this, charsVal_append, ih]
        rfl
  rw [this]; ring

/-! ## The decimal value dependency

Modelled from the spec: the engine treats the decimal library as "a thin
wrapper contract around an arbitrary-precision decimal type supporting
add/sub/mul/div/sqrt/negate, fixed-precision rounding, and truncation",
with rounding mode round-half-to-even and the precision budget
`MAX_DIGITS + BUFFER` configured in the source. Values are exact
rationals; each arithmetic operation rounds its result to the precision
budget of significant digits. -/

/-- Round half to even: the integer nearest to `q`, ties to the even one. -/
def rhe (q : ℚ) : ℤ :=
  let f := Int.floor q
  let r := q - f
  if r < 1 / 2 then f
  else if 1 / 2 < r then f + 1
  else if f % 2 = 0 then f else f + 1

/-- Round `q` at `k` places after the decimal point (`k` may be negative),
half to even. -/
def roundAt (k : ℤ) (q : ℚ) : ℚ := (rhe (q * 10 ^ k) : ℚ) / 10 ^ k

/-- Truncation toward zero, as an integer. -/
def truncQ (q : ℚ) : ℤ := if 0 ≤ q then Int.floor q else -Int.floor (-q)

/-- Number of base-10 digits (0 for 0). -/
def natDigitsLen (n : ℕ) : ℕ := (natToRevDigits (n + 1) n).length

/-- Floor of the base-10 logarithm of a positive rational. -/
def floorLog10 (q : ℚ) : ℤ :=
  let a := q.num.natAbs
  let b := q.den
  let c : ℤ := (natDigitsLen a : ℤ) - (natDigitsLen b : ℤ)
  if (10 : ℚ) ^ c ≤ |q| then c else c - 1

/-- Round `q` to `prec` significant digits, half to even (the rounding the
decimal library applies to every arithmetic result). -/
def sigRound (prec : ℕ) (q : ℚ) : ℚ :=
  if q = 0 then 0 else roundAt ((prec : ℤ) - 1 - floorLog10 q) q

/-- Multiplicity of the factor `p` in `n`, with fuel. -/
def countFac : ℕ → ℕ → ℕ → ℕ
  | 0, _, _ => 0
  | fuel + 1, p, n =>
      if 2 ≤ p ∧ n ≠ 0 ∧ n % p = 0 then 1 + countFac fuel p (n / p) else 0

/-- The least `k` with `den ∣ 10 ^ k`, when `den` has only the prime
factors 2 and 5; `none` otherwise. -/
def decKOf (den : ℕ) : Option ℕ :=
  let a := countFac den 2 den
  let b := countFac den 5 den
  if den = 2 ^ a * 5 ^ b then some (max a b) else none

/-- Positional rendering of `n / 10 ^ k` (both natural): digit characters
with a decimal point `k` places from the right, zero-padded so that at
least one digit precedes the point; no point when `k = 0`. -/
def renderFixed (n k : ℕ) : List Char :=
  if k = 0 then natDigitChars n
  else
    let ds := natDigitChars n
    let pad := List.replicate (k + 1 - ds.length) '0' ++ ds
    pad.take (pad.length - k) ++ '.' :: pad.drop (pad.length - k)

/-- Modelled from the spec: `toFixed()` of the decimal library — plain
(never exponential) positional notation of a decimal-finite rational,
minimal digits. On a rational that is not decimal-finite (which the
engine never produces: every operation rounds to a finite number of
significant digits) it falls back to a placeholder. -/
def toFixedQ (q : ℚ) : String :=
  match decKOf q.den with
  | none => "?"
  | some k =>
      let sign := if q < 0 then "-" else ""
      let m := (|q| * 10 ^ k).num.natAbs
      sign ++ ⟨renderFixed m k⟩

/-- Strip trailing `0` characters. -/
def stripTrailingZeros (l : List Char) : List Char :=
  (l.reverse.dropWhile (fun c => c == '0')).reverse

/-- Modelled from the spec: exponential rendering `m.mmm` ++ `e±N` used by
the decimal library `toString` once the exponent reaches `toExpPos`. -/
def expString (q : ℚ) : String :=
  match decKOf q.den with
  | none => "?"
  | some k =>
      let m := (|q| * 10 ^ k).num.natAbs
      let ds0 := natDigitChars m
      let e : ℤ := (ds0.length : ℤ) - 1 - k
      let ds := stripTrailingZeros ds0
      let mant : String :=
        match ds with
        | [] => "0"
        | d :: [] => ⟨[d]⟩
        | d :: rest => ⟨[d]⟩ ++ "." ++ ⟨rest⟩
      (if q < 0 then "-" else "") ++ mant ++ "e" ++
        (if 0 ≤ e then "+" else "-") ++ ⟨natDigitChars e.natAbs⟩

/-- Modelled from the spec: `toString()` of the decimal library with the
configuration of the source (`toExpPos: 8`, default `toExpNeg = -7`):
plain positional notation, switching to exponential once the decimal
exponent reaches 8 or drops below -7. -/
def toStringQ (q : ℚ) : String :=
  if q = 0 then "0"
  else
    let e := floorLog10 q
    if 8 ≤ e ∨ e ≤ -7 then expString q else toFixedQ q

/-! ## Parsing decimal literals

Modelled from the spec: the decimal library constructor accepts a decimal
literal — an optional minus sign, then digits with an optional fractional
part (a trailing or leading point is allowed but not a lone point), then
an optional exponent part — and throws on anything else. `none` models
the throw. -/

/-- Digits of an exponent part (all characters must be digits). -/
def parseExpDigits (l : List Char) : Option ℤ :=
  if l.isEmpty then none
  else if l.all isDigitCh then some (charsVal l : ℤ) else none

/-- Exponent part after the `e`: optional sign, then digits. -/
def parseExp (l : List Char) : Option ℤ :=
  match l with
  | [] => parseExpDigits []
  | c :: r =>
      if c = '+' then parseExpDigits r
      else if c = '-' then (parseExpDigits r).map Neg.neg
      else parseExpDigits (c :: r)

/-- Unsigned decimal literal. -/
def parseUnsigned (l : List Char) : Option ℚ :=
  let ip := l.takeWhile isDigitCh
  let rest := l.dropWhile isDigitCh
  match rest with
  | [] => if ip.isEmpty then none else some (charsVal ip : ℚ)
  | c :: r2 =>
      if c = '.' then
        let fp := r2.takeWhile isDigitCh
        let rest2 := r2.dropWhile isDigitCh
        if ip.isEmpty && fp.isEmpty then none
        else
          let base : ℚ := (charsVal ip : ℚ) + (charsVal fp : ℚ) / 10 ^ fp.length
          match rest2 with
          | [] => some base
          | e :: r3 =>
              if e = 'e' ∨ e = 'E' then (parseExp r3).map fun ex => base * 10 ^ ex
              else none
      else if c = 'e' ∨ c = 'E' then
        if ip.isEmpty then none
        else (parseExp r2).map fun ex => (charsVal ip : ℚ) * 10 ^ ex
      else none

/-- Signed decimal literal (only a minus sign is accepted, as in the
library grammar). -/
def parseNumL (l : List Char) : Option ℚ :=
  match l with
  | [] => parseUnsigned []
  | c :: rest =>
      if c = '-' then (parseUnsigned rest).map Neg.neg
      else parseUnsigned (c :: rest)

/-! ## Decimal values and operations -/

/-- A value of the decimal library: a rational, or `none` for its NaN. -/
abbrev DecVal : Type := Option ℚ

/-- `MAX_DIGITS` of the source: the number of digits the calculator shows. -/
def MAX_DIGITS : ℕ := 20

/-- `BUFFER` of the source: extra accuracy digits for the accumulator. -/
def BUFFER : ℕ := 4

/-- `EQUATION_PRECISION` of the source: digits shown in the equation line. -/
def EQUATION_PRECISION : ℕ := 2

/-- The precision budget `MAX_DIGITS + BUFFER` set by `Decimal.set` in the
source. -/
def PRECISION : ℕ := MAX_DIGITS + BUFFER

/-- `OUT_OF_MEMORY` sentinel string of the source. -/
def OUT_OF_MEMORY : String := "Out of Memory"

/-- `TRUNCATION_TRIGGER` of the source: built by the loop
`for (i = 1; i < BUFFER; i++) TRUNCATION_TRIGGER += "0"`,
hence `BUFFER - 1` zeros. -/
def TRUNCATION_TRIGGER : String := ⟨List.replicate (BUFFER - 1) '0'⟩

/-- `ROUND_UP_TRIGGER` of the source: `BUFFER - 1` nines, built by the
same loop. -/
def ROUND_UP_TRIGGER : String := ⟨List.replicate (BUFFER - 1) '9'⟩

/-- `new Decimal(value)` on a string: NaN for `"NaN"`, the parsed rational
for a valid literal, a throw (`none`) otherwise. -/
def mkDecimal (value : String) : Option DecVal :=
  if value = "NaN" then some (none : Option ℚ)
  else
    match parseNumL value.data with
    | some q => some (some q : Option ℚ)
    | none => none

/-- `toDecimalPlaces(dp)` with the configured half-even rounding; NaN
passes through. -/
def dToDP (dp : ℕ) (a : DecVal) : DecVal :=
  a.map (roundAt (dp : ℤ))

/-- `toFixed()`; NaN renders as `"NaN"`. -/
def dToFixed (a : DecVal) : String :=
  match a with
  | none => "NaN"
  | some q => toFixedQ q

/-- `toString()`; NaN renders as `"NaN"`. -/
def dToString (a : DecVal) : String :=
  match a with
  | none => "NaN"
  | some q => toStringQ q

/-- `truncated()`: exact truncation toward zero. -/
def dTrunc (a : DecVal) : DecVal :=
  a.map fun q => ((truncQ q : ℤ) : ℚ)

/-- `add`: exact sum rounded to the precision budget. -/
def dAdd (a b : DecVal) : DecVal :=
  match a, b with
  | some x, some y => (some (sigRound PRECISION (x + y)) : Option ℚ)
  | _, _ => (none : Option ℚ)

/-- `sub`: exact difference rounded to the precision budget. -/
def dSub (a b : DecVal) : DecVal :=
  match a, b with
  | some x, some y => (some (sigRound PRECISION (x - y)) : Option ℚ)
  | _, _ => (none : Option ℚ)

/-- `mul`: exact product rounded to the precision budget. -/
def dMul (a b : DecVal) : DecVal :=
  match a, b with
  | some x, some y => (some (sigRound PRECISION (x * y)) : Option ℚ)
  | _, _ => (none : Option ℚ)

/-- `neg()`: exact negation. -/
def dNeg (a : DecVal) : DecVal := a.map Neg.neg

/-- `div`: rounded quotient; division by zero throws in the library
(`none` here), matching the `try`/`catch` in the dispatch table. -/
def dDivRaw (a b : DecVal) : Option DecVal :=
  match a, b with
  | some x, some y =>
      if y = 0 then none
      else some (some (sigRound PRECISION (x / y)) : Option ℚ)
  | _, _ => some (none : Option ℚ)

/-- Modelled from the spec: square root of the decimal library at the
precision budget. The spec fixes only the precision and rounding mode;
this approximation truncates the integer square root at 30 fractional
digits before applying the significant-digit rounding. No claim depends
on its exact digits. -/
def dSqrt (a : DecVal) : Option DecVal :=
  match a with
  | none => some (none : Option ℚ)
  | some q =>
      if q < 0 then some (none : Option ℚ)
      else some (some (sigRound PRECISION
        ((Nat.sqrt (Int.toNat (Int.floor (q * 10 ^ 60))) : ℚ) / 10 ^ 30)) : Option ℚ)

/-! ## JavaScript string utilities used by the source -/

/-- Is `pat` a prefix of `l`? -/
def isPrefixL : List Char → List Char → Bool
  | [], _ => true
  | _ :: _, [] => false
  | a :: as, b :: bs => a == b && isPrefixL as bs

/-- Does `l` contain `pat` as a contiguous substring (JS `includes`)? -/
def hasSubL : List Char → List Char → Bool
  | [], pat => pat.isEmpty
  | l@(_ :: t), pat => isPrefixL pat l || hasSubL t pat

/-- JS `haystack.includes(needle)`. -/
def strIncludes (haystack needle : String) : Bool :=
  hasSubL haystack.data needle.data

/-- Index of the first occurrence of a character. -/
def firstIdxL (c : Char) : List Char → Option ℕ
  | [] => none
  | a :: t => if a == c then some 0 else (firstIdxL c t).map fun n => n + 1

/-- JS `s.indexOf(c)`: first index, `-1` when absent. -/
def jsIndexOf (s : String) (c : Char) : ℤ :=
  match firstIdxL c s.data with
  | some n => (n : ℤ)
  | none => -1

/-- Index of the last occurrence of a character. -/
def lastIdxOf (c : Char) : List Char → Option ℕ
  | [] => none
  | a :: t =>
      match lastIdxOf c t with
      | some i => some (i + 1)
      | none => if a == c then some 0 else none

/-- JS `s.lastIndexOf(c)`: last index, `-1` when absent. -/
def jsLastIndexOf (s : String) (c : Char) : ℤ :=
  match lastIdxOf c s.data with
  | some n => (n : ℤ)
  | none => -1

/-- JS `s.substring(i)` (negative indices clamp to 0). -/
def jsSubstringFrom (s : String) (i : ℤ) : String := ⟨s.data.drop i.toNat⟩

/-- JS `s.substring(0, i)` (negative indices clamp to 0). -/
def jsSubstringTo (s : String) (i : ℤ) : String := ⟨s.data.take i.toNat⟩

/-- `removeLastChar` of the source: `value.substring(0, value.length - 1)`. -/
def removeLastChar (value : String) : String :=
  ⟨value.data.take (value.data.length - 1)⟩

/-- `lastChar` of the source: the last character as a 1-character string,
or the marker `"[EMPTY STRING]"` (the JS `||` fallback) when empty. -/
def lastChar (input : String) : String :=
  match input.data.getLast? with
  | some c => ⟨[c]⟩
  | none => "[EMPTY STRING]"

/-! ## The engine: utility predicates and the display formatter -/

/-- `isBinaryOperation` of the source: a substring test against the
operator alphabet string. -/
def isBinaryOperation (input : String) : Bool :=
  strIncludes "+|-|*|/|&times;|&divide;|add|sub|mul|div" input

/-- `mapOp` of the source: the display glyph of an operator token. -/
def mapOp (operation : String) : String :=
  match operation with
  | "/" => "&divide;"
  | "div" => "&divide;"
  | "*" => "&times;"
  | "mul" => "&times;"
  | "add" => "+"
  | "sub" => "-"
  | _ => operation

/-- The trigger-and-overflow part of `relevantPart`, applied to the
already-constructed decimal value. -/
def relevantPartCore (d : DecVal) (precision : ℕ) : String :=
  let g0 := dToFixed (dToDP precision d)
  let g1 := if strIncludes g0 TRUNCATION_TRIGGER then dToString (dTrunc d) else g0
  let g2 :=
    if strIncludes g1 ROUND_UP_TRIGGER then
      dToString (dAdd (dTrunc d) (some (1 : ℚ) : Option ℚ))
    else g1
  if (MAX_DIGITS : ℤ) ≤ jsIndexOf g2 '.' then OUT_OF_MEMORY
  else if strIncludes g2 "." then g2 else g2 ++ "."

/-- `relevantPart` of the source (the display formatter `format` of the
spec): corner cases, round to `precision` decimal places, apply the two
trigger heuristics, the overflow check `indexOf(".") >= MAX_DIGITS`, and
the trailing-dot rule. `none` models a throw from the `Decimal`
constructor on an unparseable value string. -/
def relevantPart (value : String) (precision : ℕ) : Option String :=
  if value = "0." ∨ value = "." ∨ value = "" then some "0."
  else if value = OUT_OF_MEMORY then some OUT_OF_MEMORY
  else (mkDecimal value).map fun d => relevantPartCore d precision

/-- `getDecimal` of the source: `"."` and the empty string denote zero. -/
def getDecimal (value : String) : Option DecVal :=
  if value = "." ∨ value = "" then some (some (0 : ℚ) : Option ℚ)
  else mkDecimal value

/-! ## The calculator state machine -/

/-- The tag of a pending binary operation. The source stores the function
itself (`addition`, `subtraction`, `multiplication`, `division`); a
closed tagged variant dispatched through `applyBin` is the faithful
first-order image of that. -/
inductive BinOp
  | addB
  | subB
  | mulB
  | divB
  deriving DecidableEq

/-- The dispatch table: `addition`, `subtraction`, `multiplication` and
`division` of the source (`division` wraps the library division in
`try`/`catch` and substitutes NaN for a division-by-zero throw). -/
def applyBin : BinOp → DecVal → DecVal → DecVal
  | .addB, a, b => dAdd a b
  | .subB, a, b => dSub a b
  | .mulB, a, b => dMul a b
  | .divB, a, b =>
      match dDivRaw a b with
      | none => (none : Option ℚ)
      | some v => v

/-- The mutable aggregate of the source (`Calculator` interface without
the UI handles). `partAcc` models the field holding the accumulated
operand (spelled `p`+`artial` in the source), `lastOperation` the stored
binary function, `allowChange` the edit-mode flag. -/
structure Calc where
  memory : DecVal
  partAcc : DecVal
  lastOperation : Option BinOp
  primary : String
  equation : String
  allowChange : Bool
  deriving DecidableEq

/-- The state at startup. -/
def initCalc : Calc :=
  { memory := (some (0 : ℚ) : Option ℚ)
    partAcc := (some (0 : ℚ) : Option ℚ)
    lastOperation := none
    primary := ""
    equation := ""
    allowChange := true }

/-- `updateDisplays` of the source, restricted to its state mutations:
when the formatted primary is the overflow sentinel, the partial result
is zeroed, the equation cleared, the primary replaced by the sentinel and
editing frozen. `none` models a throw from `relevantPart`. -/
def updateDisplays (c : Calc) : Option Calc :=
  match relevantPart c.primary MAX_DIGITS with
  | none => none
  | some t =>
      if t = OUT_OF_MEMORY then
        some { c with partAcc := (some (0 : ℚ) : Option ℚ)
                      equation := ""
                      primary := OUT_OF_MEMORY
                      allowChange := false }
      else some c

/-- `handleDigit` of the source (the button animation is UI and omitted):
reset on locked mode, single-point rule, digit budget, leading-zero
suppression. -/
def handleDigit (c0 : Calc) (digit : String) : Calc :=
  let c := if ¬ c0.allowChange then { c0 with primary := "", allowChange := true } else c0
  let isDot := digit = "."
  let currentContent := c.primary
  if isDot ∧ strIncludes currentContent "." then c
  else
    let precision : ℤ := if isDot then (c.primary.data.length : ℤ) - 1 else (c.primary.data.length : ℤ)
    if (MAX_DIGITS : ℤ) ≤ precision then c
    else if c.primary ≠ "" ∨ digit ≠ "0" then { c with primary := currentContent ++ digit }
    else c

/-- `updateLastOperationAndAnimate` of the source, restricted to its state
mutation: store the binary function for the operator token (the animation
is UI; an unknown token leaves the field unchanged). -/
def updateLastOperation (c : Calc) (operation : String) : Calc :=
  match operation with
  | "+" => { c with lastOperation := some BinOp.addB }
  | "add" => { c with lastOperation := some BinOp.addB }
  | "-" => { c with lastOperation := some BinOp.subB }
  | "sub" => { c with lastOperation := some BinOp.subB }
  | "*" => { c with lastOperation := some BinOp.mulB }
  | "mul" => { c with lastOperation := some BinOp.mulB }
  | "/" => { c with lastOperation := some BinOp.divB }
  | "div" => { c with lastOperation := some BinOp.divB }
  | _ => c

/-- `handleEquals` of the source: apply the pending operation to the
accumulated operand and the current entry, store the extended-precision
result string into the primary, clear the equation, lock editing. -/
def handleEquals (c : Calc) : Option Calc :=
  match c.lastOperation with
  | none => some c
  | some op =>
      if c.primary = OUT_OF_MEMORY then some c
      else
        match getDecimal c.primary with
        | none => none
        | some rhs =>
            let newPart := applyBin op c.partAcc rhs
            some { c with partAcc := newPart
                          lastOperation := none
                          primary := dToString (dToDP (MAX_DIGITS + BUFFER) newPart)
                          equation := ""
                          allowChange := false }

/-- `handleBinaryOperation` of the source: operator replacement when the
equation already ends in an operator glyph and the entry is empty;
otherwise resolve any pending operation (auto-equals with a display
refresh), snapshot the operand at equation precision, and record the new
pending operation. -/
def handleBinaryOperation (c0 : Calc) (operation : String) : Option Calc :=
  let last0 := lastChar c0.equation
  let pair :=
    if last0 = ";" then
      let position := jsLastIndexOf c0.equation '&'
      (jsSubstringFrom c0.equation position, jsSubstringTo c0.equation (position + 1))
    else (last0, c0.equation)
  if isBinaryOperation pair.1 = true ∧ c0.primary = "" then
    some (updateLastOperation
      { c0 with equation := removeLastChar pair.2 ++ mapOp operation } operation)
  else
    let step1 : Option Calc :=
      match c0.lastOperation with
      | some _ =>
          match handleEquals c0 with
          | none => none
          | some c1 => updateDisplays c1
      | none => some c0
    match step1 with
    | none => none
    | some c =>
        if c.primary = OUT_OF_MEMORY then
          some { c with lastOperation := none, allowChange := false }
        else
          let withPart : Option Calc :=
            if c.primary ≠ "" then
              match getDecimal c.primary with
              | none => none
              | some d => some { c with partAcc := d }
            else some c
          match withPart with
          | none => none
          | some c2 =>
              match relevantPart c2.primary EQUATION_PRECISION with
              | none => none
              | some valueForDisplay =>
                  if valueForDisplay = OUT_OF_MEMORY then
                    some { c2 with equation := OUT_OF_MEMORY
                                   lastOperation := none
                                   allowChange := false }
                  else
                    some (updateLastOperation
                      { c2 with equation := c2.equation ++ valueForDisplay ++ mapOp operation
                                primary := "" } operation)

/-- `handleUnaryOperation` of the source: apply the unary function at the
extended precision, then pass the result through the formatter at the
display width. -/
def handleUnaryOperation (c : Calc) (operation : String) : Option Calc :=
  if c.primary = "" ∨ c.primary = OUT_OF_MEMORY then some c
  else
    match getDecimal c.primary with
    | none => none
    | some v0 =>
        let step : Option DecVal :=
          match operation with
          | "rcp" => dDivRaw (some (1 : ℚ) : Option ℚ) v0
          | "%" => dDivRaw v0 (some (100 : ℚ) : Option ℚ)
          | "pct" => dDivRaw v0 (some (100 : ℚ) : Option ℚ)
          | "sqrt" => dSqrt v0
          | "sqr" => some (dMul v0 v0)
          | "pm" => some (dNeg v0)
          | _ => some v0
        match step with
        | none => none
        | some v =>
            let result := dToString (dToDP (MAX_DIGITS + BUFFER) v)
            match relevantPart result MAX_DIGITS with
            | none => none
            | some p => some { c with primary := p }

/-- `handleClearButton` of the source: all-clear (`btn-ac`/`a`) resets the
equation, primary, accumulator and memory; clear-entry (`btn-cl`/`c`)
resets only the primary; backspace (`btn-del`/`Backspace`) trims the
primary in edit mode and clears it otherwise. -/
def handleClearButton (c : Calc) (id : String) : Calc :=
  if id = "a" ∨ id = "btn-ac" then
    { c with equation := ""
             primary := ""
             partAcc := (some (0 : ℚ) : Option ℚ)
             memory := (some (0 : ℚ) : Option ℚ) }
  else if id = "c" ∨ id = "btn-cl" then
    { c with primary := "" }
  else if id = "Backspace" ∨ id = "btn-del" then
    if c.allowChange then { c with primary := removeLastChar c.primary }
    else { c with primary := "", allowChange := true }
  else c

/-- `handleMemoryButton` of the source (dispatch on `id.substring(4)`):
memory clear, recall through the formatter, add and subtract of the
formatted primary (the `new Decimal` on the formatted string throws on
the sentinel, modelled by `none`). -/
def handleMemoryButton (c : Calc) (id : String) : Option Calc :=
  let key := jsSubstringFrom id 4
  if key = "mc" then some { c with memory := (some (0 : ℚ) : Option ℚ) }
  else if key = "mr" then
    match relevantPart (dToString c.memory) MAX_DIGITS with
    | none => none
    | some r => some { c with primary := if r = "" then "0." else r }
  else if key = "mp" then
    match relevantPart c.primary MAX_DIGITS with
    | none => none
    | some r =>
        match mkDecimal r with
        | none => none
        | some d => some { c with memory := dAdd c.memory d, allowChange := false }
  else if key = "mm" then
    match relevantPart c.primary MAX_DIGITS with
    | none => none
    | some r =>
        match mkDecimal r with
        | none => none
        | some d => some { c with memory := dSub c.memory d, allowChange := false }
  else some c

/-- One user token: the clicked button dispatches its handler and then
repaints via `updateDisplays`, exactly as the listeners registered in the
source do. -/
inductive Token
  | digit (d : String)
  | bin (op : String)
  | un (op : String)
  | eqT
  | clr (id : String)
  | mem (id : String)

/-- One token step: handler followed by the display refresh. -/
def step (c : Calc) : Token → Option Calc
  | .digit d => updateDisplays (handleDigit c d)
  | .bin op =>
      match handleBinaryOperation c op with
      | none => none
      | some c1 => updateDisplays c1
  | .un op =>
      match handleUnaryOperation c op with
      | none => none
      | some c1 => updateDisplays c1
  | .eqT =>
      match handleEquals c with
      | none => none
      | some c1 => updateDisplays c1
  | .clr id => updateDisplays (handleClearButton c id)
  | .mem id =>
      match handleMemoryButton c id with
      | none => none
      | some c1 => updateDisplays c1

/-- Run a token sequence from a state. -/
def runTokens : Calc → List Token → Option Calc
  | c, [] => some c
  | c, t :: ts =>
      match step c t with
      | none => none
      | some c1 => runTokens c1 ts

/-! ## Derived measures and token sequences used in the statements -/

/-- Length of a display string excluding the decimal point. -/
def nonDotLen (s : String) : ℕ := (s.data.filter fun c => !(c == '.')).length

/-- Number of digit characters (excluding sign and point). -/
def digitCount (s : String) : ℕ := (s.data.filter isDigitCh).length

/-- The trailing-dot rule of the formatter: append a point when none is
present. -/
def withTrailingDot (s : String) : String :=
  if strIncludes s "." then s else s ++ "."

/-- The twenty keystrokes of the operand `1.234567890123456789`
(19 digits and one point: within the digit budget). -/
def c4Operand : List Token :=
  [Token.digit "1", Token.digit ".", Token.digit "2", Token.digit "3", Token.digit "4",
   Token.digit "5", Token.digit "6", Token.digit "7", Token.digit "8", Token.digit "9",
   Token.digit "0", Token.digit "1", Token.digit "2", Token.digit "3", Token.digit "4",
   Token.digit "5", Token.digit "6", Token.digit "7", Token.digit "8", Token.digit "9"]

/-- Type `1.234567890123456789`, press multiply, type it again, press
equals. -/
def c4Seq : List Token := c4Operand ++ [Token.bin "mul"] ++ c4Operand ++ [Token.eqT]

/-- Type `7`, memory-add, all-clear, memory-recall. -/
def c5Seq : List Token :=
  [Token.digit "7", Token.mem "btn-mp", Token.clr "btn-ac", Token.mem "btn-mr"]

section RatReducible

/- The batteries library marks the core rational operations irreducible;
evaluation inside proofs needs them transparent. -/
attribute [local semireducible] Rat.add Rat.mul Rat.inv Rat.sub Rat.ofScientific

/-! ## Claim C9 -/

/-- Claim C9 (confirmed): the truncation and round-up triggers are matched
anywhere in the rounded string, not only in its fractional part:
`format("2000.5", 20)` drops the exact fractional part and returns
`"2000."` (the zeros of the integer part fire the truncation trigger),
and `format("999", 20)` returns `"1000."` (the nines of the integer part
fire the round-up trigger). -/
theorem triggers_match_anywhere_in_string :
    relevantPart "2000.5" MAX_DIGITS = some "2000." ∧
    relevantPart "999" MAX_DIGITS = some "1000." := by
  constructor <;> decide

/-! ## Claim C5 -/

/-- Claim C5 (counterexample): the sequence `"7"`, memory-add, all-clear,
memory-recall does not yield primary `"7."` — the memory register does
not survive all-clear. -/
theorem memory_roundtrip_not_seven :
    (runTokens initCalc c5Seq).map Calc.primary ≠ some "7." := by
  decide

/-- Claim C5 (amended): the sequence `"7"`, memory-add, all-clear,
memory-recall yields primary `"0."`: `handleClearButton` on `btn-ac`
resets the memory register to zero, so memory-recall recalls 0, which
formats to `"0."`. -/
theorem memory_roundtrip_yields_zero :
    (runTokens initCalc c5Seq).map Calc.primary = some "0." := by
  decide

/-! ## Claim C6 -/

/-- Claim C6 (counterexample): handling an all-clear token does not put
the machine in Entry mode: from a state with `allowChange = false` (for
example right after a computed result) the all-clear handler leaves
`allowChange = false`. -/
theorem allClear_leaves_locked_mode :
    ¬ (handleClearButton
        { memory := (some (5 : ℚ) : Option ℚ)
          partAcc := (some (3 : ℚ) : Option ℚ)
          lastOperation := some BinOp.addB
          primary := "9"
          equation := "2+"
          allowChange := false } "btn-ac").allowChange = true := by
  decide

/-- Claim C6 (amended): for every state, handling an all-clear token
resets `equation` and `primary` to the empty string and the accumulator
and memory registers to zero, and changes nothing else: in particular the
edit-mode flag `allowChange` and the pending `lastOperation` are left as
they were rather than being reset to Entry mode. -/
theorem allClear_resets_fields_only (s : Calc) :
    handleClearButton s "btn-ac" =
      { s with equation := ""
               primary := ""
               partAcc := (some (0 : ℚ) : Option ℚ)
               memory := (some (0 : ℚ) : Option ℚ) } := rfl

/-! ## Claim C4 -/

/-- Claim C4 (the code violates the digit-budget invariant): typing the
19-digit operand `1.234567890123456789` (within the budget), multiplying
it by itself and pressing equals reaches a state whose `primary` is the
24-significant-digit accumulator string `1.52415787532388367501905` —
24 characters excluding the dot, exceeding `MAX_DIGITS = 20`, while not
being the overflow sentinel. The display path would show 21 digits,
contradicting the source comment that `MAX_DIGITS` "is the number of
digits that the calculator will show". -/
theorem digit_budget_violated_by_computed_result :
    (runTokens initCalc c4Seq).map Calc.primary = some "1.52415787532388367501905" ∧
    nonDotLen "1.52415787532388367501905" = 24 ∧
    "1.52415787532388367501905" ≠ OUT_OF_MEMORY ∧
    MAX_DIGITS < 24 := by
  refine ⟨by decide, by decide, by decide, by decide⟩

/-! ## Claim C1, the counterexample -/

/-- Claim C1 (counterexample): for the value `2.0000000001` at precision
20, rounding changes nothing and the fractional part carries a run of
nine zeros (at least the buffer width), so the claim predicts the value
truncated to 20 fractional digits — the unchanged `"2.0000000001"`. The
code instead truncates to an integer and returns `"2."`. -/
theorem truncation_is_to_integer_not_to_precision :
    relevantPart "2.0000000001" MAX_DIGITS = some "2." ∧
    ("2." : String) ≠ "2.0000000001" := by
  refine ⟨by decide, by decide⟩

/-! ## Claim C2, the counterexample -/

/-- Claim C2 (counterexample): for the value `1.9999` at precision 20 the
rounded string is `"1.9999"`, whose fractional part is a run of four
nines (the buffer width), so the claim predicts truncation to 20
fractional digits plus one unit in the 20th place:
`"1.99990000000000000001"`. The code instead truncates to an integer and
adds one whole unit, returning `"2."`. -/
theorem roundUp_adds_unit_at_integer_place :
    relevantPart "1.9999" MAX_DIGITS = some "2." ∧
    ("2." : String) ≠ "1.99990000000000000001" := by
  refine ⟨by decide, by decide⟩

/-! ## Claim C3, the counterexample -/

/-- Claim C3 (counterexample): the sentinel is not returned exactly when
the digit count exceeds 20. A 21-digit integer result formats to itself
with a trailing dot (its rounded string has no decimal point, so the
check `indexOf(".") >= MAX_DIGITS` sees `-1`), while a negative value
with only 20 digits is replaced by the sentinel (the sign character
pushes the dot to index 20). -/
theorem overflow_check_counts_predot_chars_not_digits :
    relevantPart "123456789012345678901" MAX_DIGITS = some "123456789012345678901." ∧
    digitCount "123456789012345678901." = 21 ∧
    relevantPart "-1234567890123456789.5" MAX_DIGITS = some OUT_OF_MEMORY ∧
    digitCount "-1234567890123456789.5" = 20 := by
  refine ⟨by decide, by decide, by decide, by decide⟩

/-! ## Claim C8, the counterexample -/

/-- Claim C8 (counterexample): the formatter is not idempotent. Formatting
`1998.9995` at precision 20 yields `"1999."`, but formatting `"1999."`
again fires the round-up trigger and yields `"2000."`. Exponential
output also breaks idempotence: `"100000000"` formats to `"1e+8."`,
which the decimal constructor cannot re-parse. -/
theorem format_not_idempotent :
    relevantPart "1998.9995" MAX_DIGITS = some "1999." ∧
    relevantPart "1999." MAX_DIGITS = some "2000." ∧
    relevantPart "100000000" MAX_DIGITS = some "1e+8." ∧
    relevantPart "1e+8." MAX_DIGITS = none := by
  refine ⟨by decide, by decide, by decide, by decide⟩

/-! ## Claim C10 -/

/-- Claim C10 (confirmed): all-clear leaves the pending binary operation
unchanged (and zeroes the accumulator), and on any state with a pending
operation, a zeroed accumulator and a parseable entry, a subsequent
equals is not a no-op: it applies the stale operation with zero as the
left operand and the current entry as the right operand. -/
theorem allClear_keeps_pending_and_equals_applies_it
    (s t : Calc) (op : BinOp) (v : DecVal)
    (ht1 : t.lastOperation = some op) (ht2 : t.partAcc = some (0 : ℚ))
    (ht3 : ¬ t.primary = OUT_OF_MEMORY) (hv : getDecimal t.primary = some v) :
    (handleClearButton s "btn-ac").lastOperation = s.lastOperation ∧
    (handleClearButton s "btn-ac").partAcc = (some (0 : ℚ) : Option ℚ) ∧
    handleEquals t = some
      { t with partAcc := applyBin op (some (0 : ℚ) : Option ℚ) v
               lastOperation := none
               primary := dToString (dToDP (MAX_DIGITS + BUFFER)
                 (applyBin op (some (0 : ℚ) : Option ℚ) v))
               equation := ""
               allowChange := false } ∧
    handleEquals t ≠ some t := by
  obtain ⟨mem, pa, lo, pr, eqn, ac⟩ := t
  simp only at ht1 ht2 ht3 hv
  subst ht1 ht2
  have h3 : handleEquals ⟨mem, some (0 : ℚ), some op, pr, eqn, ac⟩ = some
      ⟨mem, applyBin op (some (0 : ℚ) : Option ℚ) v, none,
        dToString (dToDP (MAX_DIGITS + BUFFER) (applyBin op (some (0 : ℚ) : Option ℚ) v)),
        "", false⟩ := by
    unfold handleEquals
    simp only [if_neg ht3, hv]
  refine ⟨rfl, rfl, h3, ?_⟩
  intro hcontra
  rw [h3] at hcontra
  have hfields := Option.some.inj hcontra
  have hlast := congrArg Calc.lastOperation hfields
  exact Option.noConfusion hlast

/-- Claim C10 (witness): a concrete instance — from the state reached by
`1`, `+`, all-clear, `5`, the stale addition is applied to 0 and 5. -/
theorem allClear_keeps_pending_witness :
    (handleClearButton
        (⟨(some (0 : ℚ) : Option ℚ), (some (1 : ℚ) : Option ℚ), some BinOp.addB,
          "", "1.+", true⟩ : Calc) "btn-ac").lastOperation =
      (⟨(some (0 : ℚ) : Option ℚ), (some (1 : ℚ) : Option ℚ), some BinOp.addB,
        "", "1.+", true⟩ : Calc).lastOperation ∧
    (handleClearButton
        (⟨(some (0 : ℚ) : Option ℚ), (some (1 : ℚ) : Option ℚ), some BinOp.addB,
          "", "1.+", true⟩ : Calc) "btn-ac").partAcc = (some (0 : ℚ) : Option ℚ) ∧
    handleEquals (⟨(some (0 : ℚ) : Option ℚ), (some (0 : ℚ) : Option ℚ), some BinOp.addB,
        "5", "", true⟩ : Calc) = some
      { (⟨(some (0 : ℚ) : Option ℚ), (some (0 : ℚ) : Option ℚ), some BinOp.addB,
          "5", "", true⟩ : Calc) with
        partAcc := applyBin BinOp.addB (some (0 : ℚ) : Option ℚ) (some (5 : ℚ) : Option ℚ)
        lastOperation := none
        primary := dToString (dToDP (MAX_DIGITS + BUFFER)
          (applyBin BinOp.addB (some (0 : ℚ) : Option ℚ) (some (5 : ℚ) : Option ℚ)))
        equation := ""
        allowChange := false } ∧
    handleEquals (⟨(some (0 : ℚ) : Option ℚ), (some (0 : ℚ) : Option ℚ), some BinOp.addB,
        "5", "", true⟩ : Calc) ≠
      some (⟨(some (0 : ℚ) : Option ℚ), (some (0 : ℚ) : Option ℚ), some BinOp.addB,
        "5", "", true⟩ : Calc) :=
  allClear_keeps_pending_and_equals_applies_it _ _ BinOp.addB (some (5 : ℚ) : Option ℚ)
    rfl rfl (by decide) (by decide)

/-! ## Claim C7 and supporting string lemmas -/

theorem lastChar_of_data_concat {s : String} {l : List Char} {ch : Char}
    (h : s.data = l ++ [ch]) : lastChar s = ⟨[ch]⟩ := by
  unfold lastChar
  rw [h, List.getLast?_concat]

theorem removeLastChar_of_data_concat {s : String} {l : List Char} {ch : Char}
    (h : s.data = l ++ [ch]) : removeLastChar s = ⟨l⟩ := by
  unfold removeLastChar
  rw [h]
  have hlen : (l ++ [ch]).length - 1 = l.length := by simp
  rw [hlen, List.take_left]

theorem lastIdxOf_append_of_some {ch : Char} {l2 : List Char} {i : ℕ}
    (h : lastIdxOf ch l2 = some i) (l1 : List Char) :
    lastIdxOf ch (l1 ++ l2) = some (l1.length + i) := by
  induction l1 with
  | nil => simpa using h
  | cons a t ih =>
      simp only [List.cons_append, lastIdxOf, List.length_cons, List.append_eq]
      rw [ih]
      show some (t.length + i + 1) = some (t.length + 1 + i)
      congr 1
      omega

/-- Claim C7 (confirmed): whenever the equation ends in a binary-operator
glyph (`+`, `-`, `&times;` or `&divide;`) and the primary entry is empty,
handling a new binary-operator token replaces the trailing glyph with the
glyph of the new operator and records the new operation, without
appending any operand snapshot and without touching any other field. -/
theorem operator_replacement (c0 : Calc) (e g operation : String)
    (hg : g = "+" ∨ g = "-" ∨ g = "&times;" ∨ g = "&divide;")
    (heq : c0.equation = e ++ g) (hp : c0.primary = "") :
    handleBinaryOperation c0 operation =
      some (updateLastOperation { c0 with equation := e ++ mapOp operation } operation) := by
  rcases hg with hg | hg | hg | hg
  case inl =>
    subst hg
    have hdata : c0.equation.data = e.data ++ ['+'] := by
      rw [heq]; exact String.data_append e "+"
    have hlast : lastChar c0.equation = ⟨['+']⟩ := lastChar_of_data_concat hdata
    have hrem : removeLastChar c0.equation = ⟨e.data⟩ := removeLastChar_of_data_concat hdata
    simp only [handleBinaryOperation, hlast]
    rw [if_neg (by decide : ¬ (⟨['+']⟩ : String) = ";")]
    have hbin : isBinaryOperation (⟨['+']⟩ : String) = true := by decide
    have hcond : isBinaryOperation ((⟨['+']⟩ : String), c0.equation).1 = true ∧
        c0.primary = "" := ⟨hbin, hp⟩
    rw [if_pos hcond, hrem]
  case inr.inl =>
    subst hg
    have hdata : c0.equation.data = e.data ++ ['-'] := by
      rw [heq]; exact String.data_append e "-"
    have hlast : lastChar c0.equation = ⟨['-']⟩ := lastChar_of_data_concat hdata
    have hrem : removeLastChar c0.equation = ⟨e.data⟩ := removeLastChar_of_data_concat hdata
    simp only [handleBinaryOperation, hlast]
    rw [if_neg (by decide : ¬ (⟨['-']⟩ : String) = ";")]
    have hbin : isBinaryOperation (⟨['-']⟩ : String) = true := by decide
    have hcond : isBinaryOperation ((⟨['-']⟩ : String), c0.equation).1 = true ∧
        c0.primary = "" := ⟨hbin, hp⟩
    rw [if_pos hcond, hrem]
  case inr.inr.inl =>
    subst hg
    have hdata : c0.equation.data = e.data ++ ['&', 't', 'i', 'm', 'e', 's', ';'] := by
      rw [heq]; exact String.data_append e "&times;"
    have hdata2 : c0.equation.data = (e.data ++ ['&', 't', 'i', 'm', 'e', 's']) ++ [';'] := by
      rw [hdata]; simp
    have hlast : lastChar c0.equation = ⟨[';']⟩ := lastChar_of_data_concat hdata2
    have hidx : lastIdxOf '&' c0.equation.data = some (e.data.length + 0) := by
      rw [hdata]
      exact lastIdxOf_append_of_some (by decide) e.data
    have hjsidx : jsLastIndexOf c0.equation '&' = ((e.data.length : ℤ) + 0) := by
      unfold jsLastIndexOf
      rw [hidx]
      simp
    have htoN : ((e.data.length : ℤ) + 0).toNat = e.data.length := by omega
    have htoN1 : ((e.data.length : ℤ) + 0 + 1).toNat = e.data.length + 1 := by omega
    have hfrom : jsSubstringFrom c0.equation ((e.data.length : ℤ) + 0) =
        (⟨['&', 't', 'i', 'm', 'e', 's', ';']⟩ : String) := by
      unfold jsSubstringFrom
      rw [htoN, hdata, List.drop_left]
    have hto : jsSubstringTo c0.equation ((e.data.length : ℤ) + 0 + 1) =
        (⟨e.data ++ ['&']⟩ : String) := by
      unfold jsSubstringTo
      rw [htoN1, hdata, List.take_append 1]
      rfl
    have hrem : removeLastChar (⟨e.data ++ ['&']⟩ : String) = (⟨e.data⟩ : String) :=
      removeLastChar_of_data_concat rfl
    have hbin : isBinaryOperation (⟨['&', 't', 'i', 'm', 'e', 's', ';']⟩ : String) = true := by
      decide
    simp only [handleBinaryOperation, hlast]
    rw [if_pos trivial, hjsidx, hfrom, hto]
    have hcond : isBinaryOperation
          ((⟨['&', 't', 'i', 'm', 'e', 's', ';']⟩ : String), (⟨e.data ++ ['&']⟩ : String)).1 = true ∧
        c0.primary = "" := ⟨hbin, hp⟩
    rw [if_pos hcond, hrem]
  case inr.inr.inr =>
    subst hg
    have hdata : c0.equation.data = e.data ++ ['&', 'd', 'i', 'v', 'i', 'd', 'e', ';'] := by
      rw [heq]; exact String.data_append e "&divide;"
    have hdata2 : c0.equation.data = (e.data ++ ['&', 'd', 'i', 'v', 'i', 'd', 'e']) ++ [';'] := by
      rw [hdata]; simp
    have hlast : lastChar c0.equation = ⟨[';']⟩ := lastChar_of_data_concat hdata2
    have hidx : lastIdxOf '&' c0.equation.data = some (e.data.length + 0) := by
      rw [hdata]
      exact lastIdxOf_append_of_some (by decide) e.data
    have hjsidx : jsLastIndexOf c0.equation '&' = ((e.data.length : ℤ) + 0) := by
      unfold jsLastIndexOf
      rw [hidx]
      simp
    have htoN : ((e.data.length : ℤ) + 0).toNat = e.data.length := by omega
    have htoN1 : ((e.data.length : ℤ) + 0 + 1).toNat = e.data.length + 1 := by omega
    have hfrom : jsSubstringFrom c0.equation ((e.data.length : ℤ) + 0) =
        (⟨['&', 'd', 'i', 'v', 'i', 'd', 'e', ';']⟩ : String) := by
      unfold jsSubstringFrom
      rw [htoN, hdata, List.drop_left]
    have hto : jsSubstringTo c0.equation ((e.data.length : ℤ) + 0 + 1) =
        (⟨e.data ++ ['&']⟩ : String) := by
      unfold jsSubstringTo
      rw [htoN1, hdata, List.take_append 1]
      rfl
    have hrem : removeLastChar (⟨e.data ++ ['&']⟩ : String) = (⟨e.data⟩ : String) :=
      removeLastChar_of_data_concat rfl
    have hbin : isBinaryOperation (⟨['&', 'd', 'i', 'v', 'i', 'd', 'e', ';']⟩ : String) = true := by
      decide
    simp only [handleBinaryOperation, hlast]
    rw [if_pos trivial, hjsidx, hfrom, hto]
    have hcond : isBinaryOperation
          ((⟨['&', 'd', 'i', 'v', 'i', 'd', 'e', ';']⟩ : String), (⟨e.data ++ ['&']⟩ : String)).1 = true ∧
        c0.primary = "" := ⟨hbin, hp⟩
    rw [if_pos hcond, hrem]

/-- Claim C7 (witness): from the state reached by `5`, `+` (equation
`5.+`, empty primary), pressing multiply rewrites the equation to
`5.&times;`: the `+` glyph is gone, the multiplication glyph ends the
equation, and the operand snapshot `5` appears exactly once. -/
theorem operator_replacement_witness :
    handleBinaryOperation
        (⟨(some (0 : ℚ) : Option ℚ), (some (5 : ℚ) : Option ℚ), some BinOp.addB,
          "", "5.+", true⟩ : Calc) "mul" =
      some (updateLastOperation
        { (⟨(some (0 : ℚ) : Option ℚ), (some (5 : ℚ) : Option ℚ), some BinOp.addB,
            "", "5.+", true⟩ : Calc) with equation := "5." ++ mapOp "mul" } "mul") ∧
    "5." ++ mapOp "mul" = "5.&times;" ∧
    strIncludes "5.&times;" "+" = false ∧
    ("5.&times;" : String).data.count '5' = 1 :=
  ⟨operator_replacement _ "5." "+" "mul" (Or.inl rfl) rfl rfl, by decide, by decide, by decide⟩

/-! ## Character-class facts for the rendering functions -/

theorem ne_of_isDigitCh {c : Char} (h : isDigitCh c = true) :
    c ≠ '.' ∧ c ≠ '-' ∧ c ≠ 'e' ∧ c ≠ 'E' ∧ c ≠ 'N' ∧ c ≠ 'O' := by
  refine ⟨?_, ?_, ?_, ?_, ?_, ?_⟩ <;> (intro hc; subst hc; exact absurd h (by decide))

theorem mem_natDigitChars_isDigit {n : ℕ} {c : Char} (h : c ∈ natDigitChars n) :
    isDigitCh c = true := by
  unfold natDigitChars at h
  by_cases h0 : n = 0
  · simp [h0] at h
    subst h
    decide
  · simp only [h0, if_false, List.mem_map, List.mem_reverse] at h
    obtain ⟨d, hd, hdc⟩ := h
    subst hdc
    exact isDigitCh_digitChar (natToRevDigits_lt _ _ _ hd)

theorem natDigitChars_ne_nil (n : ℕ) : natDigitChars n ≠ [] := by
  unfold natDigitChars
  by_cases h0 : n = 0
  · simp [h0]
  · simp only [h0, if_false]
    intro hcon
    have hlen := congrArg List.length hcon
    simp only [List.length_map, List.length_reverse, List.length_nil] at hlen
    have : valRev (natToRevDigits (n + 1) n) = n := valRev_natToRevDigits _ _ (by omega)
    rw [List.length_eq_zero.mp hlen] at this
    exact h0 (by simpa [valRev] using this.symm)

theorem firstIdxL_eq_none {c : Char} {l : List Char} (h : c ∉ l) :
    firstIdxL c l = none := by
  induction l with
  | nil => rfl
  | cons a t ih =>
      simp only [List.mem_cons, not_or] at h
      have hne : (a == c) = false := beq_eq_false_iff_ne.mpr fun hc => h.1 hc.symm
      simp only [firstIdxL, hne, Bool.false_eq_true, if_false, ih h.2]
      rfl

theorem firstIdxL_append_of_not_mem {c : Char} {pre : List Char} (h : c ∉ pre)
    (suf : List Char) :
    firstIdxL c (pre ++ suf) = (firstIdxL c suf).map fun n => n + pre.length := by
  induction pre with
  | nil => simp
  | cons a t ih =>
      simp only [List.mem_cons, not_or] at h
      have hne : (a == c) = false := beq_eq_false_iff_ne.mpr fun hc => h.1 hc.symm
      simp only [List.cons_append, firstIdxL, hne, Bool.false_eq_true, if_false, List.append_eq]
      rw [ih h.2]
      cases firstIdxL c suf with
      | none => rfl
      | some n => simp [List.length_cons, Nat.add_assoc]

theorem stripTrailingZeros_subset {l : List Char} {c : Char}
    (h : c ∈ stripTrailingZeros l) : c ∈ l := by
  unfold stripTrailingZeros at h
  rw [List.mem_reverse] at h
  rw [← List.mem_reverse]
  exact (List.dropWhile_sublist _).mem h

theorem dot_not_mem_natDigitChars (n : ℕ) : '.' ∉ natDigitChars n := by
  intro h
  exact (ne_of_isDigitCh (mem_natDigitChars_isDigit h)).1 rfl

theorem jsIndexOf_of_not_mem {s : String} (h : '.' ∉ s.data) : jsIndexOf s '.' = -1 := by
  unfold jsIndexOf
  rw [firstIdxL_eq_none h]

theorem jsIndexOf_dot_structure {s : String} {pre rest : List Char}
    (h : s.data = pre ++ '.' :: rest) (hpre : '.' ∉ pre) :
    jsIndexOf s '.' = (pre.length : ℤ) := by
  unfold jsIndexOf
  rw [h, firstIdxL_append_of_not_mem hpre]
  have h0 : firstIdxL '.' ('.' :: rest) = some 0 := by
    simp [firstIdxL]
  rw [h0]
  simp

theorem jsIndexOf_dot_expString_le (q : ℚ) : jsIndexOf (expString q) '.' ≤ 2 := by
  unfold expString
  cases hk : decKOf q.den with
  | none => simp only [hk]; decide
  | some k =>
      simp only [hk]
      have hsub : ∀ c ∈ stripTrailingZeros (natDigitChars ((|q| * 10 ^ k).num.natAbs)),
          isDigitCh c = true := fun c hc =>
        mem_natDigitChars_isDigit (stripTrailingZeros_subset hc)
      cases hds : stripTrailingZeros (natDigitChars ((|q| * 10 ^ k).num.natAbs)) with
      | nil =>
          simp only [hds]
          have hnone : jsIndexOf ((if q < 0 then "-" else "") ++ "0" ++ "e" ++
              (if 0 ≤ ((natDigitChars ((|q| * 10 ^ k).num.natAbs)).length : ℤ) - 1 - (k : ℤ)
               then "+" else "-") ++
              (⟨natDigitChars (((natDigitChars ((|q| * 10 ^ k).num.natAbs)).length : ℤ)
                - 1 - (k : ℤ)).natAbs⟩ : String)) '.' = -1 := by
            apply jsIndexOf_of_not_mem
            intro hmem
            simp only [String.data_append, List.mem_append] at hmem
            rcases hmem with (((hs | h0) | he) | hes) | hd
            · split_ifs at hs <;> exact absurd hs (by decide)
            · exact absurd h0 (by decide)
            · exact absurd he (by decide)
            · split_ifs at hes <;> exact absurd hes (by decide)
            · exact dot_not_mem_natDigitChars _ hd
          rw [hnone]
          norm_num
      | cons d rest =>
          have hd1 : isDigitCh d = true := hsub d (by rw [hds]; exact List.mem_cons_self _ _)
          cases rest with
          | nil =>
              simp only [hds]
              have hnone : jsIndexOf ((if q < 0 then "-" else "") ++ (⟨[d]⟩ : String) ++ "e" ++
                  (if 0 ≤ ((natDigitChars ((|q| * 10 ^ k).num.natAbs)).length : ℤ) - 1 - (k : ℤ)
                   then "+" else "-") ++
                  (⟨natDigitChars (((natDigitChars ((|q| * 10 ^ k).num.natAbs)).length : ℤ)
                    - 1 - (k : ℤ)).natAbs⟩ : String)) '.' = -1 := by
                apply jsIndexOf_of_not_mem
                intro hmem
                simp only [String.data_append, List.mem_append] at hmem
                rcases hmem with (((hs | h0) | he) | hes) | hd2
                · split_ifs at hs <;> exact absurd hs (by decide)
                · simp only [List.mem_singleton] at h0
                  exact (ne_of_isDigitCh hd1).1 h0.symm
                · exact absurd he (by decide)
                · split_ifs at hes <;> exact absurd hes (by decide)
                · exact dot_not_mem_natDigitChars _ hd2
              rw [hnone]
              norm_num
          | cons d2 r2 =>
              simp only [hds]
              have hdec : ((if q < 0 then "-" else "") ++ ((⟨[d]⟩ : String) ++ "." ++ (⟨d2 :: r2⟩ : String)) ++ "e" ++
                  (if 0 ≤ ((natDigitChars ((|q| * 10 ^ k).num.natAbs)).length : ℤ) - 1 - (k : ℤ)
                   then "+" else "-") ++
                  (⟨natDigitChars (((natDigitChars ((|q| * 10 ^ k).num.natAbs)).length : ℤ)
                    - 1 - (k : ℤ)).natAbs⟩ : String)).data =
                  ((if q < 0 then "-" else "").data ++ [d]) ++ '.' ::
                    ((d2 :: r2) ++ ('e' ::
                      ((if 0 ≤ ((natDigitChars ((|q| * 10 ^ k).num.natAbs)).length : ℤ) - 1 - (k : ℤ)
                        then "+" else "-").data ++
                        natDigitChars (((natDigitChars ((|q| * 10 ^ k).num.natAbs)).length : ℤ)
                          - 1 - (k : ℤ)).natAbs))) := by
                simp [String.data_append, List.append_assoc]
              rw [jsIndexOf_dot_structure hdec ?hpre]
              case hpre =>
                intro hmem
                rcases List.mem_append.mp hmem with hs | h0
                · split_ifs at hs <;> exact absurd hs (by decide)
                · simp only [List.mem_singleton] at h0
                  exact (ne_of_isDigitCh hd1).1 h0.symm
              have hle : ((if q < 0 then "-" else "").data ++ [d]).length ≤ 2 := by
                split_ifs <;> simp
              exact_mod_cast hle

theorem data_stringAppend (a b : String) : (String.append a b).data = a.data ++ b.data := rfl

theorem toFixedQ_int_eq (z : ℤ) :
    toFixedQ ((z : ℚ)) = (if (z : ℚ) < 0 then "-" else "") ++
      (⟨natDigitChars ((|(z : ℚ)| * 10 ^ (0 : ℕ)).num.natAbs)⟩ : String) := by
  unfold toFixedQ
  rw [Rat.den_intCast]
  rfl

theorem dot_not_mem_toFixedQ_int (z : ℤ) : '.' ∉ (toFixedQ ((z : ℚ))).data := by
  rw [toFixedQ_int_eq]
  intro hmem
  simp only [String.data_append, List.mem_append] at hmem
  rcases hmem with hs | hr
  · split_ifs at hs <;> exact absurd hs (by decide)
  · exact dot_not_mem_natDigitChars _ hr

theorem jsIndexOf_dot_toStringQ_int_not_ge (z : ℤ) :
    ¬ ((MAX_DIGITS : ℤ) ≤ jsIndexOf (toStringQ ((z : ℚ))) '.') := by
  have h2 := jsIndexOf_dot_expString_le ((z : ℚ))
  have h3 := jsIndexOf_of_not_mem (dot_not_mem_toFixedQ_int z)
  simp only [toStringQ]
  split_ifs with h0 hexp
  · decide
  · unfold MAX_DIGITS
    omega
  · rw [h3]
    decide

theorem rhe_intCast (n : ℤ) : rhe ((n : ℚ)) = n := by
  unfold rhe
  simp only [Int.floor_intCast, sub_self]
  norm_num

theorem roundAt_intCast_of_nonneg {k : ℤ} (hk : 0 ≤ k) (z : ℤ) :
    roundAt k ((z : ℚ)) = (z : ℚ) := by
  unfold roundAt
  obtain ⟨m, rfl⟩ := Int.eq_ofNat_of_zero_le hk
  have hmul : (z : ℚ) * 10 ^ (m : ℤ) = ((z * 10 ^ m : ℤ) : ℚ) := by
    push_cast
    rw [zpow_natCast]
  rw [hmul, rhe_intCast]
  have h10 : ((10 : ℚ) ^ (m : ℤ)) ≠ 0 := by
    apply zpow_ne_zero
    norm_num
  field_simp

theorem roundAt_int_of_neg {k : ℤ} (hk : k < 0) (q : ℚ) :
    ∃ w : ℤ, roundAt k q = (w : ℚ) := by
  refine ⟨rhe (q * 10 ^ k) * 10 ^ (-k).toNat, ?_⟩
  unfold roundAt
  have h1 : (((-k).toNat : ℤ)) = -k := Int.toNat_of_nonneg (by omega)
  have hinv : (10 : ℚ) ^ k = ((10 : ℚ) ^ (-k).toNat)⁻¹ := by
    rw [← zpow_natCast (10 : ℚ) (-k).toNat, h1, zpow_neg, inv_inv]
  rw [hinv]
  push_cast
  field_simp

theorem sigRound_intCast_exists (prec : ℕ) (z : ℤ) :
    ∃ w : ℤ, sigRound prec ((z : ℚ)) = (w : ℚ) := by
  unfold sigRound
  by_cases h0 : (z : ℚ) = 0
  · exact ⟨0, by rw [if_pos h0]; norm_num⟩
  · rw [if_neg h0]
    rcases le_or_lt 0 ((prec : ℤ) - 1 - floorLog10 ((z : ℚ))) with hk | hk
    · exact ⟨z, roundAt_intCast_of_nonneg hk z⟩
    · exact roundAt_int_of_neg hk _

/-- Claim C1 (amended): when the value string parses and the rounded
string contains the truncation trigger (three zeros, anywhere in the
string), the formatter recomputes the result as the original value
truncated to an integer — zero fractional digits, not `precision`
digits — with the trailing-dot rule applied (provided the truncated
string does not itself contain the round-up trigger, which would fire the
second heuristic). -/
theorem truncation_trigger_truncates_to_integer (v : String) (p : ℕ) (q : ℚ)
    (hv : mkDecimal v = some (some q : Option ℚ)) (h0 : ¬ v = "0.")
    (htrig : strIncludes (toFixedQ (roundAt (p : ℤ) q)) TRUNCATION_TRIGGER = true)
    (hnine : strIncludes (toStringQ (((truncQ q : ℤ) : ℚ))) ROUND_UP_TRIGGER = false) :
    relevantPart v p = some (withTrailingDot (toStringQ (((truncQ q : ℤ) : ℚ)))) := by
  have hdotv : ¬ v = "." := fun h => by
    rw [h, (by decide : mkDecimal "." = none)] at hv
    exact Option.noConfusion hv
  have hemp : ¬ v = "" := fun h => by
    rw [h, (by decide : mkDecimal "" = none)] at hv
    exact Option.noConfusion hv
  have hoom : ¬ v = OUT_OF_MEMORY := fun h => by
    rw [h, (by decide : mkDecimal OUT_OF_MEMORY = none)] at hv
    exact Option.noConfusion hv
  unfold relevantPart
  rw [if_neg (by tauto), if_neg hoom, hv]
  show some (relevantPartCore (some q : Option ℚ) p) = _
  congr 1
  simp only [relevantPartCore]
  have htrig2 : strIncludes (dToFixed (dToDP p (some q : Option ℚ))) TRUNCATION_TRIGGER = true :=
    htrig
  have hnine2 : strIncludes (dToString (dTrunc (some q : Option ℚ))) ROUND_UP_TRIGGER = false :=
    hnine
  rw [if_pos htrig2, hnine2]
  simp only [Bool.false_eq_true, if_false]
  have hjs : ¬ ((MAX_DIGITS : ℤ) ≤ jsIndexOf (dToString (dTrunc (some q : Option ℚ))) '.') :=
    jsIndexOf_dot_toStringQ_int_not_ge (truncQ q)
  rw [if_neg hjs]
  rfl

/-- Claim C2 (amended): when the value string parses, the rounded string
does not contain the truncation trigger but contains the round-up
trigger (three nines, anywhere in the string), the formatter recomputes
the result as the original value truncated to an integer plus one whole
unit — one unit at the integer place, not at the `precision`-th
fractional place — with the trailing-dot rule applied. -/
theorem roundup_trigger_truncates_and_adds_one (v : String) (p : ℕ) (q : ℚ)
    (hv : mkDecimal v = some (some q : Option ℚ)) (h0 : ¬ v = "0.")
    (hzero : strIncludes (toFixedQ (roundAt (p : ℤ) q)) TRUNCATION_TRIGGER = false)
    (hnine : strIncludes (toFixedQ (roundAt (p : ℤ) q)) ROUND_UP_TRIGGER = true) :
    relevantPart v p =
      some (withTrailingDot (toStringQ (sigRound PRECISION (((truncQ q : ℤ) : ℚ) + 1)))) := by
  have hdotv : ¬ v = "." := fun h => by
    rw [h, (by decide : mkDecimal "." = none)] at hv
    exact Option.noConfusion hv
  have hemp : ¬ v = "" := fun h => by
    rw [h, (by decide : mkDecimal "" = none)] at hv
    exact Option.noConfusion hv
  have hoom : ¬ v = OUT_OF_MEMORY := fun h => by
    rw [h, (by decide : mkDecimal OUT_OF_MEMORY = none)] at hv
    exact Option.noConfusion hv
  obtain ⟨w, hw⟩ := sigRound_intCast_exists PRECISION (truncQ q + 1)
  have hcast : (((truncQ q + 1 : ℤ)) : ℚ) = ((truncQ q : ℤ) : ℚ) + 1 := by push_cast; ring
  have hw2 : sigRound PRECISION (((truncQ q : ℤ) : ℚ) + 1) = ((w : ℚ)) := by
    rw [← hcast, hw]
  unfold relevantPart
  rw [if_neg (by tauto), if_neg hoom, hv]
  show some (relevantPartCore (some q : Option ℚ) p) = _
  congr 1
  simp only [relevantPartCore]
  have hzero2 : strIncludes (dToFixed (dToDP p (some q : Option ℚ))) TRUNCATION_TRIGGER = false :=
    hzero
  have hnine2 : strIncludes (dToFixed (dToDP p (some q : Option ℚ))) ROUND_UP_TRIGGER = true :=
    hnine
  rw [hzero2]
  simp only [Bool.false_eq_true, if_false]
  rw [if_pos hnine2]
  have hsum : dAdd (dTrunc (some q : Option ℚ)) (some (1 : ℚ) : Option ℚ) =
      (some ((w : ℚ)) : Option ℚ) := by
    show (some (sigRound PRECISION (((truncQ q : ℤ) : ℚ) + 1)) : Option ℚ) = _
    rw [hw2]
  rw [hsum]
  have hjs : ¬ ((MAX_DIGITS : ℤ) ≤ jsIndexOf (dToString (some ((w : ℚ)) : Option ℚ)) '.') :=
    jsIndexOf_dot_toStringQ_int_not_ge w
  rw [if_neg hjs]
  show withTrailingDot (toStringQ ((w : ℚ))) = _
  rw [hw2]

theorem mem_renderFixed {n k : ℕ} {c : Char} (h : c ∈ renderFixed n k) :
    isDigitCh c = true ∨ c = '.' := by
  unfold renderFixed at h
  by_cases hk : k = 0
  · rw [if_pos hk] at h
    exact Or.inl (mem_natDigitChars_isDigit h)
  · rw [if_neg hk] at h
    have hpad : ∀ x ∈ List.replicate (k + 1 - (natDigitChars n).length) '0' ++ natDigitChars n,
        isDigitCh x = true := by
      intro x hx
      rcases List.mem_append.mp hx with hx | hx
      · rw [List.eq_of_mem_replicate hx]; decide
      · exact mem_natDigitChars_isDigit hx
    rcases List.mem_append.mp h with h1 | h2
    · exact Or.inl (hpad c ((List.take_sublist _ _).mem h1))
    · rcases List.mem_cons.mp h2 with h3 | h4
      · exact Or.inr h3
      · exact Or.inl (hpad c ((List.drop_sublist _ _).mem h4))

theorem O_not_mem_toFixedQ (q : ℚ) : 'O' ∉ (toFixedQ q).data := by
  unfold toFixedQ
  cases hk : decKOf q.den with
  | none => simp only [hk]; decide
  | some k =>
      simp only [hk]
      intro hmem
      simp only [String.data_append, List.mem_append] at hmem
      rcases hmem with hs | hr
      · split_ifs at hs <;> exact absurd hs (by decide)
      · rcases mem_renderFixed hr with hd | hd
        · exact (ne_of_isDigitCh hd).2.2.2.2.2 rfl
        · exact absurd hd (by decide)

theorem O_not_mem_expString (q : ℚ) : 'O' ∉ (expString q).data := by
  unfold expString
  cases hk : decKOf q.den with
  | none => simp only [hk]; decide
  | some k =>
      simp only [hk]
      have hsub : ∀ c ∈ stripTrailingZeros (natDigitChars ((|q| * 10 ^ k).num.natAbs)),
          isDigitCh c = true := fun c hc =>
        mem_natDigitChars_isDigit (stripTrailingZeros_subset hc)
      have hmant : ∀ c ∈ (match stripTrailingZeros (natDigitChars ((|q| * 10 ^ k).num.natAbs)) with
          | [] => ("0" : String)
          | d :: [] => (⟨[d]⟩ : String)
          | d :: rest => (⟨[d]⟩ : String) ++ "." ++ (⟨rest⟩ : String)).data,
          isDigitCh c = true ∨ c = '.' := by
        cases hds : stripTrailingZeros (natDigitChars ((|q| * 10 ^ k).num.natAbs)) with
        | nil => intro c hc; left; simp at hc; subst hc; decide
        | cons d rest =>
            have hd1 : isDigitCh d = true := hsub d (by rw [hds]; exact List.mem_cons_self _ _)
            cases rest with
            | nil =>
                intro c hc
                simp only [List.mem_singleton] at hc
                subst hc
                exact Or.inl hd1
            | cons d2 r2 =>
                intro c hc
                simp only [String.data_append, List.mem_append] at hc
                rcases hc with (hc | hc) | hc
                · simp only [List.mem_singleton] at hc; subst hc; exact Or.inl hd1
                · simp only [List.mem_singleton] at hc; exact Or.inr hc
                · refine Or.inl (hsub c ?_)
                  rw [hds]
                  exact List.mem_cons_of_mem _ hc
      intro hmem
      simp only [String.data_append, List.mem_append] at hmem
      rcases hmem with (((hs | hm) | he) | hes) | hd
      · split_ifs at hs <;> exact absurd hs (by decide)
      · rcases hmant _ hm with h | h
        · exact (ne_of_isDigitCh h).2.2.2.2.2 rfl
        · exact absurd h (by decide)
      · exact absurd he (by decide)
      · split_ifs at hes <;> exact absurd hes (by decide)
      · exact (ne_of_isDigitCh (mem_natDigitChars_isDigit hd)).2.2.2.2.2 rfl

theorem O_not_mem_toStringQ (q : ℚ) : 'O' ∉ (toStringQ q).data := by
  simp only [toStringQ]
  split_ifs with h0 hexp
  · decide
  · exact O_not_mem_expString q
  · exact O_not_mem_toFixedQ q

theorem withDot_ne_OOM {s : String} (h : 'O' ∉ s.data) :
    (if strIncludes s "." = true then s else s ++ ".") ≠ OUT_OF_MEMORY := by
  intro hcon
  have hOin : 'O' ∈ OUT_OF_MEMORY.data := by decide
  rw [← hcon] at hOin
  split_ifs at hOin
  · exact h hOin
  · simp only [String.data_append, List.mem_append] at hOin
    rcases hOin with h1 | h2
    · exact h h1
    · exact absurd h2 (by decide)

/-- Claim C3 (amended): for a parseable value string, the formatter
returns the overflow sentinel exactly when neither trigger substring
occurs in the rounded string and the rounded string has a decimal point
preceded by at least `MAX_DIGITS` characters (the sign included): the
check is `indexOf(".") >= MAX_DIGITS`, so pure-integer results (no
decimal point) never overflow regardless of their digit count, and a
sign character counts toward the threshold. -/
theorem overflow_sentinel_iff (v : String) (p : ℕ) (q : ℚ)
    (hv : mkDecimal v = some (some q : Option ℚ)) (h0 : ¬ v = "0.") :
    (relevantPart v p = some OUT_OF_MEMORY ↔
      (strIncludes (toFixedQ (roundAt (p : ℤ) q)) TRUNCATION_TRIGGER = false ∧
       strIncludes (toFixedQ (roundAt (p : ℤ) q)) ROUND_UP_TRIGGER = false ∧
       (MAX_DIGITS : ℤ) ≤ jsIndexOf (toFixedQ (roundAt (p : ℤ) q)) '.')) := by
  have hdotv : ¬ v = "." := fun h => by
    rw [h, (by decide : mkDecimal "." = none)] at hv
    exact Option.noConfusion hv
  have hemp : ¬ v = "" := fun h => by
    rw [h, (by decide : mkDecimal "" = none)] at hv
    exact Option.noConfusion hv
  have hoom : ¬ v = OUT_OF_MEMORY := fun h => by
    rw [h, (by decide : mkDecimal OUT_OF_MEMORY = none)] at hv
    exact Option.noConfusion hv
  unfold relevantPart
  rw [if_neg (by tauto), if_neg hoom, hv]
  have hwrap : (Option.map (fun d => relevantPartCore d p) (some (some q : Option ℚ)) =
      some OUT_OF_MEMORY) ↔ relevantPartCore (some q : Option ℚ) p = OUT_OF_MEMORY := by
    constructor
    · intro h; exact Option.some.inj h
    · intro h; rw [Option.map_some', h]
  rw [hwrap]
  simp only [relevantPartCore]
  have hFeq : dToFixed (dToDP p (some q : Option ℚ)) = toFixedQ (roundAt (p : ℤ) q) := rfl
  rw [hFeq]
  cases hb1 : strIncludes (toFixedQ (roundAt (p : ℤ) q)) TRUNCATION_TRIGGER with
  | true =>
      simp only [eq_self_iff_true, if_true]
      cases hb2 : strIncludes (dToString (dTrunc (some q : Option ℚ))) ROUND_UP_TRIGGER with
      | true =>
          simp only [eq_self_iff_true, if_true]
          obtain ⟨w, hw⟩ := sigRound_intCast_exists PRECISION (truncQ q + 1)
          have hsum : dAdd (dTrunc (some q : Option ℚ)) (some (1 : ℚ) : Option ℚ) =
              (some ((w : ℚ)) : Option ℚ) := by
            show (some (sigRound PRECISION (((truncQ q : ℤ) : ℚ) + 1)) : Option ℚ) = _
            rw [show (((truncQ q : ℤ) : ℚ) + 1) = (((truncQ q + 1 : ℤ)) : ℚ) by push_cast; ring,
              hw]
          have hjsw : ¬ ((MAX_DIGITS : ℤ) ≤
              jsIndexOf (dToString (some ((w : ℚ)) : Option ℚ)) '.') :=
            jsIndexOf_dot_toStringQ_int_not_ge w
          rw [hsum, if_neg hjsw]
          constructor
          · intro h
            exact absurd h (withDot_ne_OOM (O_not_mem_toStringQ ((w : ℚ))))
          · rintro ⟨h1, -, -⟩
            exact Bool.noConfusion h1
      | false =>
          simp only [Bool.false_eq_true, if_false]
          have hjst : ¬ ((MAX_DIGITS : ℤ) ≤
              jsIndexOf (dToString (dTrunc (some q : Option ℚ))) '.') :=
            jsIndexOf_dot_toStringQ_int_not_ge (truncQ q)
          rw [if_neg hjst]
          constructor
          · intro h
            exact absurd h (withDot_ne_OOM (O_not_mem_toStringQ (((truncQ q : ℤ) : ℚ))))
          · rintro ⟨h1, -, -⟩
            exact Bool.noConfusion h1
  | false =>
      simp only [Bool.false_eq_true, if_false]
      cases hb2 : strIncludes (toFixedQ (roundAt (p : ℤ) q)) ROUND_UP_TRIGGER with
      | true =>
          simp only [eq_self_iff_true, if_true]
          obtain ⟨w, hw⟩ := sigRound_intCast_exists PRECISION (truncQ q + 1)
          have hsum : dAdd (dTrunc (some q : Option ℚ)) (some (1 : ℚ) : Option ℚ) =
              (some ((w : ℚ)) : Option ℚ) := by
            show (some (sigRound PRECISION (((truncQ q : ℤ) : ℚ) + 1)) : Option ℚ) = _
            rw [show (((truncQ q : ℤ) : ℚ) + 1) = (((truncQ q + 1 : ℤ)) : ℚ) by push_cast; ring,
              hw]
          have hjsw : ¬ ((MAX_DIGITS : ℤ) ≤
              jsIndexOf (dToString (some ((w : ℚ)) : Option ℚ)) '.') :=
            jsIndexOf_dot_toStringQ_int_not_ge w
          rw [hsum, if_neg hjsw]
          constructor
          · intro h
            exact absurd h (withDot_ne_OOM (O_not_mem_toStringQ ((w : ℚ))))
          · rintro ⟨-, h2, -⟩
            exact Bool.noConfusion h2
      | false =>
          simp only [Bool.false_eq_true, if_false]
          by_cases hjs : (MAX_DIGITS : ℤ) ≤ jsIndexOf (toFixedQ (roundAt (p : ℤ) q)) '.'
          · rw [if_pos hjs]
            simp [hjs]
          · rw [if_neg hjs]
            constructor
            · intro h
              exact absurd h (withDot_ne_OOM (O_not_mem_toFixedQ (roundAt (p : ℤ) q)))
            · rintro ⟨-, -, h3⟩
              exact absurd h3 hjs

/-- Claim C1 (witness): `5.000000001` at precision 20 fires the
truncation trigger and formats to the integer truncation `"5."`. -/
theorem truncation_trigger_witness :
    mkDecimal "5.000000001" = some (some ((5000000001 : ℚ) / 10 ^ 9) : Option ℚ) ∧
    strIncludes (toFixedQ (roundAt ((20 : ℕ) : ℤ) ((5000000001 : ℚ) / 10 ^ 9)))
      TRUNCATION_TRIGGER = true ∧
    relevantPart "5.000000001" 20 =
      some (withTrailingDot (toStringQ (((truncQ ((5000000001 : ℚ) / 10 ^ 9) : ℤ) : ℚ)))) ∧
    withTrailingDot (toStringQ (((truncQ ((5000000001 : ℚ) / 10 ^ 9) : ℤ) : ℚ))) = "5." :=
  ⟨by decide, by decide,
    truncation_trigger_truncates_to_integer "5.000000001" 20 ((5000000001 : ℚ) / 10 ^ 9)
      (by decide) (by decide) (by decide) (by decide), by decide⟩

/-- Claim C2 (witness): `3.9999` at precision 20 fires the round-up
trigger and formats to truncation plus one, `"4."`. -/
theorem roundup_trigger_witness :
    mkDecimal "3.9999" = some (some ((39999 : ℚ) / 10 ^ 4) : Option ℚ) ∧
    strIncludes (toFixedQ (roundAt ((20 : ℕ) : ℤ) ((39999 : ℚ) / 10 ^ 4)))
      ROUND_UP_TRIGGER = true ∧
    relevantPart "3.9999" 20 =
      some (withTrailingDot (toStringQ
        (sigRound PRECISION (((truncQ ((39999 : ℚ) / 10 ^ 4) : ℤ) : ℚ) + 1)))) ∧
    withTrailingDot (toStringQ
      (sigRound PRECISION (((truncQ ((39999 : ℚ) / 10 ^ 4) : ℤ) : ℚ) + 1))) = "4." :=
  ⟨by decide, by decide,
    roundup_trigger_truncates_and_adds_one "3.9999" 20 ((39999 : ℚ) / 10 ^ 4)
      (by decide) (by decide) (by decide) (by decide), by decide⟩

/-- Claim C3 (witness): for `-1234567890123456789.5` at precision 20 the
rounded string has no trigger substring and its decimal point sits at
index 20 (19 digits plus the sign), so the sentinel is returned even
though only 20 digits are present. -/
theorem overflow_sentinel_iff_witness :
    relevantPart "-1234567890123456789.5" 20 = some OUT_OF_MEMORY :=
  (overflow_sentinel_iff "-1234567890123456789.5" 20 ((-12345678901234567895 : ℚ) / 10)
    (by decide) (by decide)).mpr ⟨by decide, by decide, by decide⟩


theorem takeWhile_all_of {p : Char → Bool} {A : List Char} (h : ∀ c ∈ A, p c = true) :
    A.takeWhile p = A ∧ A.dropWhile p = [] := by
  induction A with
  | nil => exact ⟨rfl, rfl⟩
  | cons a t ih =>
      have ha : p a = true := h a (List.mem_cons_self _ _)
      have iht := ih fun c hc => h c (List.mem_cons_of_mem _ hc)
      simp only [List.takeWhile_cons, List.dropWhile_cons, ha, if_true]
      exact ⟨by rw [iht.1], iht.2⟩

theorem takeWhile_append_stop {p : Char → Bool} {A : List Char} (h : ∀ c ∈ A, p c = true)
    {b : Char} (hb : p b = false) (t : List Char) :
    (A ++ b :: t).takeWhile p = A ∧ (A ++ b :: t).dropWhile p = b :: t := by
  induction A with
  | nil =>
      constructor
      · simp [List.takeWhile_cons, hb]
      · simp [List.dropWhile_cons, hb]
  | cons a s ih =>
      have ha : p a = true := h a (List.mem_cons_self _ _)
      have ihs := ih fun c hc => h c (List.mem_cons_of_mem _ hc)
      simp only [List.cons_append, List.takeWhile_cons, List.dropWhile_cons, ha, if_true]
      exact ⟨by rw [ihs.1], ihs.2⟩

theorem parseUnsigned_digits {ip : List Char} (hip : ∀ c ∈ ip, isDigitCh c = true)
    (hne : ip ≠ []) : parseUnsigned ip = some ((charsVal ip : ℚ)) := by
  obtain ⟨htw, hdw⟩ := takeWhile_all_of hip
  unfold parseUnsigned
  rw [htw, hdw]
  simp only []
  rw [if_neg (by simpa [List.isEmpty_iff] using hne)]

theorem parseUnsigned_digits_dot {ip fp : List Char}
    (hip : ∀ c ∈ ip, isDigitCh c = true) (hfp : ∀ c ∈ fp, isDigitCh c = true)
    (hne : ip ≠ []) :
    parseUnsigned (ip ++ '.' :: fp) =
      some ((charsVal ip : ℚ) + (charsVal fp : ℚ) / 10 ^ fp.length) := by
  obtain ⟨htw, hdw⟩ := takeWhile_append_stop hip (by decide : isDigitCh '.' = false) fp
  obtain ⟨htw2, hdw2⟩ := takeWhile_all_of hfp
  unfold parseUnsigned
  rw [htw, hdw]
  simp only [if_pos rfl, if_true]
  rw [htw2, hdw2]
  have hipe : ip.isEmpty = false := by
    cases ip with
    | nil => exact absurd rfl hne
    | cons a t => rfl
  simp only [hipe, Bool.false_and, Bool.false_eq_true, if_false, if_true]

theorem parseUnsigned_digits_enddot {ip : List Char}
    (hip : ∀ c ∈ ip, isDigitCh c = true) (hne : ip ≠ []) :
    parseUnsigned (ip ++ ['.']) = some ((charsVal ip : ℚ)) := by
  have h := @parseUnsigned_digits_dot ip [] hip (by simp) hne
  simpa [charsVal, valRev] using h

theorem parseNumL_cons_of_ne {c : Char} (t : List Char) (hc : ¬ c = '-') :
    parseNumL (c :: t) = parseUnsigned (c :: t) := by
  show (if c = '-' then Option.map Neg.neg (parseUnsigned t) else parseUnsigned (c :: t)) =
    parseUnsigned (c :: t)
  rw [if_neg hc]

theorem renderFixed_zero (n : ℕ) : renderFixed n 0 = natDigitChars n := rfl

theorem renderFixed_pos_decomp (n : ℕ) {k : ℕ} (hk : k ≠ 0) :
    ∃ ip fp : List Char,
      renderFixed n k = ip ++ '.' :: fp ∧ ip ≠ [] ∧ fp.length = k ∧
      (∀ c ∈ ip, isDigitCh c = true) ∧ (∀ c ∈ fp, isDigitCh c = true) ∧
      charsVal ip * 10 ^ k + charsVal fp = n := by
  have hpadall : ∀ c ∈ List.replicate (k + 1 - (natDigitChars n).length) '0' ++ natDigitChars n,
      isDigitCh c = true := by
    intro c hc
    rcases List.mem_append.mp hc with hc | hc
    · rw [List.eq_of_mem_replicate hc]; decide
    · exact mem_natDigitChars_isDigit hc
  set ds := natDigitChars n with hds
  set pad := List.replicate (k + 1 - ds.length) '0' ++ ds with hpad
  have hdsne : ds ≠ [] := natDigitChars_ne_nil n
  have hdslen : 1 ≤ ds.length := by
    cases hd : ds with
    | nil => exact absurd hd hdsne
    | cons a t => simp
  have hL : k + 1 ≤ pad.length := by
    rw [hpad]
    simp only [List.length_append, List.length_replicate]
    omega
  refine ⟨pad.take (pad.length - k), pad.drop (pad.length - k), ?_, ?_, ?_, ?_, ?_, ?_⟩
  · unfold renderFixed
    rw [if_neg hk]
  · intro hcon
    have := congrArg List.length hcon
    simp only [List.length_take, List.length_nil] at this
    omega
  · simp only [List.length_drop]
    omega
  · intro c hc
    exact hpadall c ((List.take_sublist _ _).mem hc)
  · intro c hc
    exact hpadall c ((List.drop_sublist _ _).mem hc)
  · have hsplit : pad.take (pad.length - k) ++ pad.drop (pad.length - k) = pad :=
      List.take_append_drop _ _
    have hflen : (pad.drop (pad.length - k)).length = k := by
      simp only [List.length_drop]
      omega
    have := charsVal_append (pad.take (pad.length - k)) (pad.drop (pad.length - k))
    rw [hsplit, hflen] at this
    rw [← this, hpad, charsVal_zeros_append, hds, charsVal_natDigitChars]

theorem countFac_two (β : ℕ) : ∀ (α fuel : ℕ), α ≤ fuel →
    countFac fuel 2 (2 ^ α * 5 ^ β) = α := by
  intro α
  induction α with
  | zero =>
      intro fuel hf
      have hodd : 5 ^ β % 2 = 1 := by
        rw [Nat.pow_mod]
        simp
      cases fuel with
      | zero => rfl
      | succ f =>
          simp only [countFac, pow_zero, one_mul]
          rw [if_neg]
          intro hcon
          omega
  | succ a ih =>
      intro fuel hf
      cases fuel with
      | zero => omega
      | succ f =>
          have hne : 2 ^ (a + 1) * 5 ^ β ≠ 0 := by positivity
          have hdvd : 2 ∣ 2 ^ (a + 1) * 5 ^ β :=
            Dvd.dvd.mul_right (dvd_pow_self 2 (Nat.succ_ne_zero a)) _
          have hmod : 2 ^ (a + 1) * 5 ^ β % 2 = 0 := by omega
          have hdiv : 2 ^ (a + 1) * 5 ^ β / 2 = 2 ^ a * 5 ^ β := by
            rw [pow_succ, mul_comm (2 ^ a) 2, mul_assoc]
            exact Nat.mul_div_cancel_left _ (by norm_num)
          simp only [countFac]
          rw [if_pos ⟨by norm_num, hne, hmod⟩, hdiv, ih f (by omega)]
          omega

theorem countFac_five (α : ℕ) : ∀ (β fuel : ℕ), β ≤ fuel →
    countFac fuel 5 (2 ^ α * 5 ^ β) = β := by
  intro β
  induction β with
  | zero =>
      intro fuel hf
      have hnd : ¬ (5 ∣ 2 ^ α) := by
        intro h
        have h2 : (5 : ℕ) ∣ 2 := Nat.Prime.dvd_of_dvd_pow Nat.prime_five h
        omega
      have hmod : 2 ^ α % 5 ≠ 0 := by omega
      cases fuel with
      | zero => rfl
      | succ f =>
          simp only [countFac, pow_zero, mul_one]
          rw [if_neg]
          intro hcon
          exact hmod hcon.2.2
  | succ b ih =>
      intro fuel hf
      cases fuel with
      | zero => omega
      | succ f =>
          have hne : 2 ^ α * 5 ^ (b + 1) ≠ 0 := by positivity
          have hdvd : 5 ∣ 2 ^ α * 5 ^ (b + 1) :=
            Dvd.dvd.mul_left (dvd_pow_self 5 (Nat.succ_ne_zero b)) _
          have hmod : 2 ^ α * 5 ^ (b + 1) % 5 = 0 := by omega
          have hdiv : 2 ^ α * 5 ^ (b + 1) / 5 = 2 ^ α * 5 ^ b := by
            rw [pow_succ, mul_comm (5 ^ b) 5, ← mul_assoc, mul_comm (2 ^ α) 5, mul_assoc]
            exact Nat.mul_div_cancel_left _ (by norm_num)
          simp only [countFac]
          rw [if_pos ⟨by norm_num, hne, hmod⟩, hdiv, ih f (by omega)]
          omega

theorem decKOf_dvd {den k : ℕ} (h : decKOf den = some k) : den ∣ 10 ^ k := by
  unfold decKOf at h
  set a := countFac den 2 den with ha
  set b := countFac den 5 den with hb
  by_cases hc : den = 2 ^ a * 5 ^ b
  · rw [if_pos hc] at h
    obtain rfl := Option.some.inj h
    calc den = 2 ^ a * 5 ^ b := hc
    _ ∣ 2 ^ max a b * 5 ^ max a b :=
        Nat.mul_dvd_mul (pow_dvd_pow _ (le_max_left _ _)) (pow_dvd_pow _ (le_max_right _ _))
    _ = 10 ^ max a b := by rw [← Nat.mul_pow]
  · rw [if_neg hc] at h
    exact Option.noConfusion h

theorem decKOf_isSome_of_dvd {den K : ℕ} (h : den ∣ 10 ^ K) :
    ∃ k, decKOf den = some k := by
  have h25 : den ∣ 2 ^ K * 5 ^ K := by
    rw [← Nat.mul_pow]
    exact h
  obtain ⟨d1, d2, hd1, hd2, hmul⟩ := Nat.dvd_mul.mp h25
  obtain ⟨α, hαK, rfl⟩ := (Nat.dvd_prime_pow Nat.prime_two).mp hd1
  obtain ⟨β, hβK, rfl⟩ := (Nat.dvd_prime_pow Nat.prime_five).mp hd2
  have hden2 : den = 2 ^ α * 5 ^ β := hmul.symm
  have hαle : α ≤ 2 ^ α * 5 ^ β := by
    have h1 := Nat.lt_two_pow α
    have h2 : 2 ^ α ≤ 2 ^ α * 5 ^ β := Nat.le_mul_of_pos_right _ (by positivity)
    omega
  have hβle : β ≤ 2 ^ α * 5 ^ β := by
    have h1 : β < 5 ^ β := Nat.lt_pow_self (by norm_num) β
    have h2 : 5 ^ β ≤ 2 ^ α * 5 ^ β := Nat.le_mul_of_pos_left _ (by positivity)
    omega
  have ha : countFac den 2 den = α := by
    rw [hden2]
    exact countFac_two β α _ hαle
  have hb : countFac den 5 den = β := by
    rw [hden2]
    exact countFac_five α β _ hβle
  refine ⟨max α β, ?_⟩
  unfold decKOf
  rw [ha, hb, if_pos hden2]

theorem den_abs_eq (q : ℚ) : |q|.den = q.den := by
  rcases abs_cases q with ⟨h, -⟩ | ⟨h, -⟩
  · rw [h]
  · rw [h, Rat.neg_den]

theorem mul_pow_den_eq_intCast {r : ℚ} {k : ℕ} (h : r.den ∣ 10 ^ k) :
    r * 10 ^ k = (((r * 10 ^ k).num : ℤ) : ℚ) := by
  obtain ⟨d, hd⟩ := h
  have hr : r * 10 ^ k = ((r.num * d : ℤ) : ℚ) := by
    have h1 : ((10 : ℚ) ^ k) = ((r.den : ℚ)) * ((d : ℚ)) := by
      have := congrArg (fun n : ℕ => ((n : ℚ))) hd
      push_cast at this
      simpa using this
    rw [h1, ← mul_assoc, Rat.mul_den_eq_num]
    push_cast
    ring
  rw [hr, Rat.num_intCast]

theorem abs_mul_pow_eq_natCast {q : ℚ} {k : ℕ} (h : q.den ∣ 10 ^ k) :
    |q| * 10 ^ k = (((|q| * 10 ^ k).num.natAbs : ℕ) : ℚ) := by
  have habs : |q|.den ∣ 10 ^ k := by rw [den_abs_eq]; exact h
  have h1 := mul_pow_den_eq_intCast habs
  have hnn : 0 ≤ (|q| * 10 ^ k).num := by
    rw [Rat.num_nonneg]
    positivity
  have h2 : ((((|q| * 10 ^ k).num.natAbs : ℕ)) : ℤ) = (|q| * 10 ^ k).num :=
    Int.natAbs_of_nonneg hnn
  conv_lhs => rw [h1, ← h2]
  rw [Int.cast_natCast]

theorem renderFixed_head_digit (m k : ℕ) :
    ∃ c t, renderFixed m k = c :: t ∧ isDigitCh c = true := by
  by_cases hk : k = 0
  · subst hk
    rw [renderFixed_zero]
    cases hd : natDigitChars m with
    | nil => exact absurd hd (natDigitChars_ne_nil m)
    | cons c t =>
        refine ⟨c, t, rfl, ?_⟩
        exact mem_natDigitChars_isDigit (hd ▸ List.mem_cons_self _ _)
  · obtain ⟨ip, fp, heq, hipne, hfplen, hipd, hfpd, hval⟩ := renderFixed_pos_decomp m hk
    cases hip : ip with
    | nil => exact absurd hip hipne
    | cons c t =>
        refine ⟨c, t ++ '.' :: fp, ?_, ?_⟩
        · rw [heq, hip, List.cons_append]
        · exact hipd c (hip ▸ List.mem_cons_self _ _)

theorem parseUnsigned_renderFixed (m k : ℕ) :
    parseUnsigned (renderFixed m k) = some ((m : ℚ) / 10 ^ k) := by
  by_cases hk : k = 0
  · subst hk
    rw [renderFixed_zero,
      parseUnsigned_digits (fun c hc => mem_natDigitChars_isDigit hc) (natDigitChars_ne_nil m),
      charsVal_natDigitChars]
    norm_num
  · obtain ⟨ip, fp, heq, hipne, hfplen, hipd, hfpd, hval⟩ := renderFixed_pos_decomp m hk
    rw [heq, parseUnsigned_digits_dot hipd hfpd hipne, hfplen]
    congr 1
    have h10 : ((10 : ℚ)) ^ k ≠ 0 := by positivity
    have hq : ((charsVal ip : ℚ)) * 10 ^ k + ((charsVal fp : ℚ)) = ((m : ℚ)) := by
      exact_mod_cast congrArg (fun n : ℕ => ((n : ℚ))) hval
    field_simp
    linarith [hq]

theorem parse_toFixedQ {q : ℚ} {k : ℕ} (hk : decKOf q.den = some k) :
    parseNumL (toFixedQ q).data = some q := by
  have hdvd : q.den ∣ 10 ^ k := decKOf_dvd hk
  have hm := abs_mul_pow_eq_natCast hdvd
  set m := (|q| * 10 ^ k).num.natAbs with hmdef
  have h10 : ((10 : ℚ)) ^ k ≠ 0 := by positivity
  have habs : |q| = ((m : ℚ)) / 10 ^ k := by
    rw [eq_div_iff h10]
    exact hm
  have hTF : toFixedQ q = (if q < 0 then "-" else "") ++ (⟨renderFixed m k⟩ : String) := by
    unfold toFixedQ
    rw [hk]
  have hPU : parseUnsigned (renderFixed m k) = some (|q|) := by
    rw [parseUnsigned_renderFixed, habs]
  obtain ⟨c, t, hct, hcd⟩ := renderFixed_head_digit m k
  by_cases hneg : q < 0
  · rw [hTF, if_pos hneg]
    have hdata : ((("-" : String) ++ (⟨renderFixed m k⟩ : String)).data) =
        '-' :: renderFixed m k := rfl
    rw [hdata]
    show (if ('-' : Char) = '-' then (parseUnsigned (renderFixed m k)).map Neg.neg
      else parseUnsigned ('-' :: renderFixed m k)) = some q
    rw [if_pos rfl, hPU]
    show some (-|q|) = some q
    rw [abs_of_neg hneg, neg_neg]
  · rw [hTF, if_neg hneg]
    have hdata : ((("" : String) ++ (⟨renderFixed m k⟩ : String)).data) = renderFixed m k := rfl
    rw [hdata, hct, parseNumL_cons_of_ne t (ne_of_isDigitCh hcd).2.1, ← hct, hPU,
      abs_of_nonneg (le_of_not_lt hneg)]

theorem truncQ_intCast (z : ℤ) : truncQ ((z : ℚ)) = z := by
  unfold truncQ
  by_cases h : (0 : ℚ) ≤ ((z : ℚ))
  · rw [if_pos h, Int.floor_intCast]
  · rw [if_neg h, ← Int.cast_neg, Int.floor_intCast, neg_neg]

theorem roundAt_self_of_dvd {q : ℚ} {p : ℕ} (h : q.den ∣ 10 ^ p) :
    roundAt ((p : ℤ)) q = q := by
  unfold roundAt
  rw [zpow_natCast]
  have hint := mul_pow_den_eq_intCast h
  rw [hint, rhe_intCast, ← hint]
  have h10 : ((10 : ℚ)) ^ p ≠ 0 := by positivity
  field_simp

theorem den_dvd_of_roundAt (p : ℕ) (q : ℚ) :
    (roundAt ((p : ℤ)) q).den ∣ 10 ^ p := by
  unfold roundAt
  rw [zpow_natCast]
  have hdiv : ∀ w : ℤ, ((w : ℚ)) / 10 ^ p = Rat.divInt w ((10 ^ p : ℤ)) := by
    intro w
    rw [Rat.divInt_eq_div]
    norm_num
  rw [hdiv]
  exact_mod_cast Rat.den_dvd _ ((10 ^ p : ℤ))

theorem isPrefixL_append {pat l : List Char} (h : isPrefixL pat l = true) (ext : List Char) :
    isPrefixL pat (l ++ ext) = true := by
  induction pat generalizing l with
  | nil => rfl
  | cons a as ih =>
      cases l with
      | nil => exact absurd h (by simp [isPrefixL])
      | cons b bs =>
          simp only [isPrefixL, Bool.and_eq_true] at h
          simp only [List.cons_append, isPrefixL, Bool.and_eq_true]
          exact ⟨h.1, ih h.2⟩

theorem hasSubL_append_of {l pat : List Char} (ext : List Char) (h : hasSubL l pat = true) :
    hasSubL (l ++ ext) pat = true := by
  induction l with
  | nil =>
      have hp : pat = [] := by
        cases pat with
        | nil => rfl
        | cons c cs => exact absurd h (by simp [hasSubL, List.isEmpty])
      subst hp
      cases ext with
      | nil => rfl
      | cons e es => simp [hasSubL, isPrefixL]
  | cons a t ih =>
      simp only [hasSubL, Bool.or_eq_true] at h
      simp only [List.cons_append, hasSubL, Bool.or_eq_true]
      rcases h with h | h
      · exact Or.inl (isPrefixL_append h _)
      · exact Or.inr (ih h)

theorem hasSubL_false_of_append {l ext pat : List Char}
    (h : hasSubL (l ++ ext) pat = false) : hasSubL l pat = false := by
  cases hc : hasSubL l pat with
  | false => rfl
  | true => rw [hasSubL_append_of ext hc] at h; exact Bool.noConfusion h

theorem hasSubL_singleton_of_mem {c : Char} {l : List Char} (h : c ∈ l) :
    hasSubL l [c] = true := by
  induction l with
  | nil => exact absurd h (List.not_mem_nil c)
  | cons a t ih =>
      simp only [hasSubL, Bool.or_eq_true]
      rcases List.mem_cons.mp h with h | h
      · subst h
        exact Or.inl (by simp [isPrefixL])
      · exact Or.inr (ih h)

theorem e_mem_expString {q : ℚ} {k : ℕ} (hk : decKOf q.den = some k) :
    'e' ∈ (expString q).data := by
  unfold expString
  simp only [hk]
  have he : 'e' ∈ ("e" : String).data := by decide
  simp only [String.data_append, List.mem_append]
  tauto

theorem toFixedQ_head {q : ℚ} {k : ℕ} (hk : decKOf q.den = some k) :
    ∃ c t, (toFixedQ q).data = c :: t ∧ (c = '-' ∨ isDigitCh c = true) := by
  unfold toFixedQ
  simp only [hk]
  obtain ⟨c, t, hct, hcd⟩ := renderFixed_head_digit ((|q| * 10 ^ k).num.natAbs) k
  by_cases hneg : q < 0
  · rw [if_pos hneg]
    exact ⟨'-', renderFixed ((|q| * 10 ^ k).num.natAbs) k, rfl, Or.inl rfl⟩
  · rw [if_neg hneg]
    refine ⟨c, t, ?_, Or.inr hcd⟩
    show renderFixed ((|q| * 10 ^ k).num.natAbs) k = c :: t
    exact hct

theorem parse_toFixedQ_enddot {q : ℚ} (hk : decKOf q.den = some 0) :
    parseNumL ((toFixedQ q).data ++ ['.']) = some q := by
  have hdvd : q.den ∣ 10 ^ 0 := decKOf_dvd hk
  have hm := @abs_mul_pow_eq_natCast q 0 hdvd
  set m := (|q| * 10 ^ 0).num.natAbs with hmdef
  have habs : |q| = ((m : ℚ)) := by
    rw [← hm]
    norm_num
  have hTF : toFixedQ q = (if q < 0 then "-" else "") ++ (⟨renderFixed m 0⟩ : String) := by
    unfold toFixedQ
    rw [hk]
  have hPU : parseUnsigned (natDigitChars m ++ ['.']) = some (|q|) := by
    rw [parseUnsigned_digits_enddot (fun c hc => mem_natDigitChars_isDigit hc)
      (natDigitChars_ne_nil m), charsVal_natDigitChars, habs]
  by_cases hneg : q < 0
  · rw [hTF, if_pos hneg]
    have hdata : ((("-" : String) ++ (⟨renderFixed m 0⟩ : String)).data ++ ['.']) =
        '-' :: (natDigitChars m ++ ['.']) := rfl
    rw [hdata]
    show (if ('-' : Char) = '-' then (parseUnsigned (natDigitChars m ++ ['.'])).map Neg.neg
      else parseUnsigned ('-' :: (natDigitChars m ++ ['.']))) = some q
    rw [if_pos rfl, hPU]
    show some (-|q|) = some q
    rw [abs_of_neg hneg, neg_neg]
  · rw [hTF, if_neg hneg]
    have hdata : ((("" : String) ++ (⟨renderFixed m 0⟩ : String)).data ++ ['.']) =
        natDigitChars m ++ ['.'] := rfl
    rw [hdata]
    obtain ⟨c, t, hct, hcd⟩ := renderFixed_head_digit m 0
    rw [renderFixed_zero] at hct
    rw [hct, List.cons_append, parseNumL_cons_of_ne _ (ne_of_isDigitCh hcd).2.1,
      ← List.cons_append, ← hct, hPU, abs_of_nonneg (le_of_not_lt hneg)]

theorem dot_mem_toFixedQ_of_pos {q : ℚ} {k : ℕ} (hk : decKOf q.den = some k)
    (hkne : k ≠ 0) : '.' ∈ (toFixedQ q).data := by
  unfold toFixedQ
  simp only [hk]
  obtain ⟨ip, fp, heq, -, -, -, -, -⟩ :=
    renderFixed_pos_decomp ((|q| * 10 ^ k).num.natAbs) hkne
  simp only [String.data_append, List.mem_append]
  right
  show '.' ∈ renderFixed ((|q| * 10 ^ k).num.natAbs) k
  rw [heq]
  exact List.mem_append.mpr (Or.inr (List.mem_cons_self _ _))

theorem decK_zero_of_no_dot {q : ℚ} {k : ℕ} (hk : decKOf q.den = some k)
    (hdot : strIncludes (toFixedQ q) "." = false) : k = 0 := by
  by_contra hkne
  have hmem := hasSubL_singleton_of_mem (dot_mem_toFixedQ_of_pos hk hkne)
  unfold strIncludes at hdot
  rw [show ("." : String).data = ['.'] from rfl, hmem] at hdot
  exact Bool.noConfusion hdot

theorem relevantPartCore_fixed {r : ℚ} {p : ℕ}
    (h2 : roundAt ((p : ℤ)) r = r)
    (h3 : strIncludes (toFixedQ r) TRUNCATION_TRIGGER = true →
          toStringQ (((truncQ r : ℤ)) : ℚ) = toFixedQ r)
    (hR : strIncludes (toFixedQ r) ROUND_UP_TRIGGER = false)
    (h5 : ¬ ((MAX_DIGITS : ℤ) ≤ jsIndexOf (toFixedQ r) '.')) :
    relevantPartCore (some r : Option ℚ) p =
      (if strIncludes (toFixedQ r) "." = true then toFixedQ r else toFixedQ r ++ ".") := by
  simp only [relevantPartCore]
  have hg0 : dToFixed (dToDP p (some r : Option ℚ)) = toFixedQ r := by
    show toFixedQ (roundAt ((p : ℤ)) r) = toFixedQ r
    rw [h2]
  rw [hg0]
  have hg1eq : (if strIncludes (toFixedQ r) TRUNCATION_TRIGGER = true
      then dToString (dTrunc (some r : Option ℚ)) else toFixedQ r) = toFixedQ r := by
    by_cases hT : strIncludes (toFixedQ r) TRUNCATION_TRIGGER = true
    · rw [if_pos hT]
      show toStringQ (((truncQ r : ℤ)) : ℚ) = toFixedQ r
      exact h3 hT
    · exact if_neg hT
  rw [hg1eq, hR]
  simp only [Bool.false_eq_true, if_false]
  rw [if_neg h5]

theorem relevantPart_reparse {r : ℚ} {k : ℕ} {p : ℕ} {y : String}
    (hk : decKOf r.den = some k)
    (h2 : roundAt ((p : ℤ)) r = r)
    (h3 : strIncludes (toFixedQ r) TRUNCATION_TRIGGER = true →
          toStringQ (((truncQ r : ℤ)) : ℚ) = toFixedQ r)
    (h999 : strIncludes y ROUND_UP_TRIGGER = false)
    (h5 : ¬ ((MAX_DIGITS : ℤ) ≤ jsIndexOf (toFixedQ r) '.'))
    (hy : y = if strIncludes (toFixedQ r) "." = true then toFixedQ r else toFixedQ r ++ ".") :
    relevantPart y p = some y := by
  by_cases hy0 : y = "0."
  · rw [hy0]
    unfold relevantPart
    rw [if_pos (Or.inl rfl)]
  obtain ⟨c, t, hct, hcne⟩ := toFixedQ_head hk
  have hcdot : ¬ c = '.' := by
    rcases hcne with h | h
    · rw [h]; decide
    · exact (ne_of_isDigitCh h).1
  have hcN : ¬ c = 'N' := by
    rcases hcne with h | h
    · rw [h]; decide
    · exact (ne_of_isDigitCh h).2.2.2.2.1
  have hcO : ¬ c = 'O' := by
    rcases hcne with h | h
    · rw [h]; decide
    · exact (ne_of_isDigitCh h).2.2.2.2.2
  by_cases hdot : strIncludes (toFixedQ r) "." = true
  · rw [if_pos hdot] at hy
    have htail : y.data = c :: t := by
      rw [hy, hct]
    have hR : strIncludes (toFixedQ r) ROUND_UP_TRIGGER = false := by
      rw [← hy]
      exact h999
    have hparse : parseNumL y.data = some r := by
      rw [hy]
      exact parse_toFixedQ hk
    have hyne : ¬ (y = "0." ∨ y = "." ∨ y = "") := by
      rintro (h | h | h)
      · exact hy0 h
      · rw [h] at htail
        rw [show ("." : String).data = ['.'] from rfl] at htail
        injection htail with h1 h2
        exact hcdot h1.symm
      · rw [h] at htail
        exact List.noConfusion htail
    have hyOOM : ¬ y = OUT_OF_MEMORY := by
      intro h
      rw [h] at htail
      rw [show OUT_OF_MEMORY.data = 'O' :: ("ut of Memory" : String).data from rfl] at htail
      injection htail with h1 h2
      exact hcO h1.symm
    have hNaN : ¬ y = "NaN" := by
      intro h
      rw [h] at htail
      rw [show ("NaN" : String).data = 'N' :: ("aN" : String).data from rfl] at htail
      injection htail with h1 h2
      exact hcN h1.symm
    have hmk : mkDecimal y = some (some r : Option ℚ) := by
      unfold mkDecimal
      rw [if_neg hNaN, hparse]
    unfold relevantPart
    rw [if_neg hyne, if_neg hyOOM, hmk]
    show some (relevantPartCore (some r : Option ℚ) p) = some y
    rw [relevantPartCore_fixed h2 h3 hR h5, if_pos hdot, hy]
  · rw [if_neg hdot] at hy
    have hdata : y.data = (toFixedQ r).data ++ ['.'] := by
      rw [hy]
      rfl
    have htail : y.data = c :: (t ++ ['.']) := by
      rw [hdata, hct]
      rfl
    have hR : strIncludes (toFixedQ r) ROUND_UP_TRIGGER = false := by
      unfold strIncludes at h999 ⊢
      rw [hdata] at h999
      exact hasSubL_false_of_append h999
    have hk0 : k = 0 := decK_zero_of_no_dot hk (by
      cases hdd : strIncludes (toFixedQ r) "." with
      | false => rfl
      | true => exact absurd hdd hdot)
    have hparse : parseNumL y.data = some r := by
      rw [hdata]
      exact parse_toFixedQ_enddot (hk0 ▸ hk)
    have hyne : ¬ (y = "0." ∨ y = "." ∨ y = "") := by
      rintro (h | h | h)
      · exact hy0 h
      · rw [h] at htail
        rw [show ("." : String).data = ['.'] from rfl] at htail
        injection htail with h1 h2
        exact hcdot h1.symm
      · rw [h] at htail
        exact List.noConfusion htail
    have hyOOM : ¬ y = OUT_OF_MEMORY := by
      intro h
      rw [h] at htail
      rw [show OUT_OF_MEMORY.data = 'O' :: ("ut of Memory" : String).data from rfl] at htail
      injection htail with h1 h2
      exact hcO h1.symm
    have hNaN : ¬ y = "NaN" := by
      intro h
      rw [h] at htail
      rw [show ("NaN" : String).data = 'N' :: ("aN" : String).data from rfl] at htail
      injection htail with h1 h2
      exact hcN h1.symm
    have hmk : mkDecimal y = some (some r : Option ℚ) := by
      unfold mkDecimal
      rw [if_neg hNaN, hparse]
    unfold relevantPart
    rw [if_neg hyne, if_neg hyOOM, hmk]
    show some (relevantPartCore (some r : Option ℚ) p) = some y
    rw [relevantPartCore_fixed h2 h3 hR h5, if_neg hdot, hy]

theorem relevantPart_of_intString {W : ℤ} {p : ℕ} {y : String}
    (hyO : ¬ y = OUT_OF_MEMORY)
    (hyeq : y = if (MAX_DIGITS : ℤ) ≤ jsIndexOf (toStringQ ((W : ℚ))) '.' then OUT_OF_MEMORY
      else if strIncludes (toStringQ ((W : ℚ))) "." = true then toStringQ ((W : ℚ))
      else toStringQ ((W : ℚ)) ++ ".")
    (h999 : strIncludes y ROUND_UP_TRIGGER = false)
    (hE : ¬ 'e' ∈ y.data) :
    relevantPart y p = some y := by
  by_cases hW0 : W = 0
  · subst hW0
    have h0s : toStringQ (((0 : ℤ)) : ℚ) = "0" := by
      unfold toStringQ
      rw [if_pos (by norm_num)]
    rw [h0s, if_neg (by decide), if_neg (by decide)] at hyeq
    have h0d : ("0" : String) ++ "." = "0." := rfl
    rw [h0d] at hyeq
    rw [hyeq]
    unfold relevantPart
    rw [if_pos (Or.inl rfl)]
  · have hw0 : ((W : ℚ)) ≠ 0 := by exact_mod_cast hW0
    have hden : ((W : ℚ)).den = 1 := Rat.den_intCast W
    have hk : decKOf ((W : ℚ)).den = some 0 := by
      rw [hden]
      decide
    have hcases : toStringQ ((W : ℚ)) = expString ((W : ℚ)) ∨
        toStringQ ((W : ℚ)) = toFixedQ ((W : ℚ)) := by
      unfold toStringQ
      rw [if_neg hw0]
      by_cases hexp : 8 ≤ floorLog10 ((W : ℚ)) ∨ floorLog10 ((W : ℚ)) ≤ -7
      · rw [if_pos hexp]
        exact Or.inl rfl
      · rw [if_neg hexp]
        exact Or.inr rfl
    have hTS : toStringQ ((W : ℚ)) = toFixedQ ((W : ℚ)) := by
      rcases hcases with hes | hfs
      · exfalso
        apply hE
        have hmemg : 'e' ∈ (toStringQ ((W : ℚ))).data := by
          rw [hes]
          exact e_mem_expString hk
        by_cases hOOMc : (MAX_DIGITS : ℤ) ≤ jsIndexOf (toStringQ ((W : ℚ))) '.'
        · rw [if_pos hOOMc] at hyeq
          exact absurd hyeq hyO
        · rw [if_neg hOOMc] at hyeq
          by_cases hdd : strIncludes (toStringQ ((W : ℚ))) "." = true
          · rw [if_pos hdd] at hyeq
            rw [hyeq]
            exact hmemg
          · rw [if_neg hdd] at hyeq
            rw [hyeq]
            show 'e' ∈ (toStringQ ((W : ℚ))).data ++ ['.']
            exact List.mem_append.mpr (Or.inl hmemg)
      · exact hfs
    rw [hTS] at hyeq
    have h2 : roundAt ((p : ℤ)) ((W : ℚ)) = ((W : ℚ)) :=
      roundAt_self_of_dvd (by rw [hden]; exact one_dvd _)
    have h3 : strIncludes (toFixedQ ((W : ℚ))) TRUNCATION_TRIGGER = true →
        toStringQ (((truncQ ((W : ℚ)) : ℤ)) : ℚ) = toFixedQ ((W : ℚ)) := by
      intro hcon
      rw [truncQ_intCast]
      exact hTS
    have h5 : ¬ ((MAX_DIGITS : ℤ) ≤ jsIndexOf (toFixedQ ((W : ℚ))) '.') := by
      intro hcon
      rw [if_pos hcon] at hyeq
      exact hyO hyeq
    rw [if_neg h5] at hyeq
    exact relevantPart_reparse hk h2 h3 h999 h5 hyeq

/-- Claim C8 (amended): the display formatter is idempotent on every
output it produces from a value that is not the overflow sentinel and
not `"NaN"`, provided that output contains neither the round-up trigger
(three nines) nor an exponent marker `e`; formatting such an output
again returns it unchanged. (The two provisos are necessary: the proved
counterexample shows a `999`- or `e`-carrying output is rewritten.) -/
theorem format_idempotent_without_roundup_or_exponent
    (v y : String) (p : ℕ)
    (hvO : ¬ v = OUT_OF_MEMORY) (hvN : ¬ v = "NaN")
    (hy : relevantPart v p = some y)
    (h999 : strIncludes y ROUND_UP_TRIGGER = false)
    (hE : ¬ 'e' ∈ y.data) :
    relevantPart y p = some y := by
  by_cases hyO : y = OUT_OF_MEMORY
  · rw [hyO]
    unfold relevantPart
    rw [if_neg (by decide), if_pos rfl]
  unfold relevantPart at hy
  by_cases hc : v = "0." ∨ v = "." ∨ v = ""
  · rw [if_pos hc] at hy
    have hy0 : y = "0." := (Option.some.inj hy).symm
    rw [hy0]
    unfold relevantPart
    rw [if_pos (Or.inl rfl)]
  rw [if_neg hc, if_neg hvO] at hy
  cases hmk : mkDecimal v with
  | none =>
      rw [hmk] at hy
      exact Option.noConfusion hy
  | some d =>
      cases d with
      | none =>
          exfalso
          unfold mkDecimal at hmk
          rw [if_neg hvN] at hmk
          cases hp : parseNumL v.data with
          | none =>
              rw [hp] at hmk
              exact Option.noConfusion hmk
          | some q =>
              rw [hp] at hmk
              exact Option.noConfusion (Option.some.inj hmk)
      | some q =>
          rw [hmk] at hy
          have hyeq : y = relevantPartCore (some q : Option ℚ) p := (Option.some.inj hy).symm
          clear hy
          simp only [relevantPartCore] at hyeq
          have hcast : (((truncQ q : ℤ)) : ℚ) + 1 = (((truncQ q + 1 : ℤ)) : ℚ) := by
            push_cast
            ring
          obtain ⟨W, hW⟩ := sigRound_intCast_exists PRECISION (truncQ q + 1)
          have hbr : dToString (dAdd (dTrunc (some q : Option ℚ)) (some (1 : ℚ) : Option ℚ)) =
              toStringQ ((W : ℚ)) := by
            show toStringQ (sigRound PRECISION (((truncQ q : ℤ) : ℚ) + 1)) = toStringQ ((W : ℚ))
            rw [hcast, hW]
          have htr : dToString (dTrunc (some q : Option ℚ)) =
              toStringQ (((truncQ q : ℤ)) : ℚ) := rfl
          by_cases hT : strIncludes (dToFixed (dToDP p (some q : Option ℚ)))
              TRUNCATION_TRIGGER = true
          · rw [if_pos hT] at hyeq
            by_cases hR2 : strIncludes (dToString (dTrunc (some q : Option ℚ)))
                ROUND_UP_TRIGGER = true
            · rw [if_pos hR2, hbr] at hyeq
              exact relevantPart_of_intString hyO hyeq h999 hE
            · rw [if_neg hR2, htr] at hyeq
              exact relevantPart_of_intString hyO hyeq h999 hE
          · rw [if_neg hT] at hyeq
            by_cases hRR : strIncludes (dToFixed (dToDP p (some q : Option ℚ)))
                ROUND_UP_TRIGGER = true
            · rw [if_pos hRR, hbr] at hyeq
              exact relevantPart_of_intString hyO hyeq h999 hE
            · rw [if_neg hRR] at hyeq
              have hg0 : dToFixed (dToDP p (some q : Option ℚ)) =
                  toFixedQ (roundAt ((p : ℤ)) q) := rfl
              rw [hg0] at hyeq hT hRR
              have hden : (roundAt ((p : ℤ)) q).den ∣ 10 ^ p := den_dvd_of_roundAt p q
              obtain ⟨k, hk⟩ := decKOf_isSome_of_dvd hden
              have h2 : roundAt ((p : ℤ)) (roundAt ((p : ℤ)) q) = roundAt ((p : ℤ)) q :=
                roundAt_self_of_dvd hden
              have h5 : ¬ ((MAX_DIGITS : ℤ) ≤ jsIndexOf (toFixedQ (roundAt ((p : ℤ)) q)) '.') := by
                intro hcon
                rw [if_pos hcon] at hyeq
                exact hyO hyeq
              rw [if_neg h5] at hyeq
              exact relevantPart_reparse hk h2 (fun hcon => absurd hcon hT) h999 h5 hyeq

/-- Claim C8 (witness): formatting `12.5` at precision 2 yields `12.5`,
which contains neither trigger nor an exponent marker, and formatting it
again returns it unchanged. -/
theorem format_idempotent_witness :
    relevantPart "12.5" 2 = some "12.5" :=
  format_idempotent_without_roundup_or_exponent "12.5" "12.5" 2
    (by decide) (by decide) (by decide) (by decide) (by decide)

end RatReducible
